import Mathlib

/-!
Verification of the auto-triage Slack-message sanitizer
(`.github/actions/auto-triage/auto_triage/sanitize_slack_message.py`).

The script is embedded shallowly: parsed JSON documents become the inductive
type `JVal` (numbers are modelled as integers; floating-point literals are
outside the model), Python exceptions become the `PyErr` sum type
(`ValueError` and `json.JSONDecodeError` are caught by `main`, while
`AttributeError`/`TypeError` escape and are modelled as `PyErr.uncaught`),
and the in-place mutation of parsed dictionaries is modelled by functional
update (`jSet`).  Strings are Lean `String`s manipulated through their
character lists; Python's `str.strip`, `str.lstrip("@")` and `str.lower`
are reproduced character by character (the whitespace set is the ASCII part
of Python's, and `lower` is ASCII case-mapping, which covers every string
the validator compares).
-/

namespace Sanitize

/-- A parsed JSON document, as produced by `json.loads` in the sanitizer.
Numbers are restricted to integers; `json.dumps(sort_keys=True)` makes
object key order unobservable, but objects are still kept as association
lists in parse order. -/
inductive JVal where
  | null
  | bool (b : Bool)
  | num (n : Int)
  | str (s : String)
  | arr (xs : List JVal)
  | obj (kvs : List (String × JVal))

mutual

/-- Structural equality test for JSON values. -/
def beqJ : JVal → JVal → Bool
  | .null, .null => true
  | .bool a, .bool b => a == b
  | .num a, .num b => a == b
  | .str a, .str b => a == b
  | .arr a, .arr b => beqArr a b
  | .obj a, .obj b => beqObj a b
  | _, _ => false

def beqArr : List JVal → List JVal → Bool
  | [], [] => true
  | a :: as, b :: bs => beqJ a b && beqArr as bs
  | _, _ => false

def beqObj : List (String × JVal) → List (String × JVal) → Bool
  | [], [] => true
  | (k, v) :: as, (l, w) :: bs => k == l && beqJ v w && beqObj as bs
  | _, _ => false

end

mutual

theorem beqJ_eq : ∀ {a b : JVal}, beqJ a b = true → a = b
  | .null, .null, _ => rfl
  | .bool _, .bool _, h => by
      simp only [beqJ, beq_iff_eq] at h; rw [h]
  | .num _, .num _, h => by
      simp only [beqJ, beq_iff_eq] at h; rw [h]
  | .str _, .str _, h => by
      simp only [beqJ, beq_iff_eq] at h; rw [h]
  | .arr _, .arr _, h => by
      simp only [beqJ] at h; rw [beqArr_eq h]
  | .obj _, .obj _, h => by
      simp only [beqJ] at h; rw [beqObj_eq h]

theorem beqArr_eq : ∀ {a b : List JVal}, beqArr a b = true → a = b
  | [], [], _ => rfl
  | x :: xs, y :: ys, h => by
      simp only [beqArr, Bool.and_eq_true] at h
      rw [beqJ_eq h.1, beqArr_eq h.2]

theorem beqObj_eq : ∀ {a b : List (String × JVal)}, beqObj a b = true → a = b
  | [], [], _ => rfl
  | (k, v) :: xs, (l, w) :: ys, h => by
      simp only [beqObj, Bool.and_eq_true, beq_iff_eq] at h
      rw [h.1.1, beqJ_eq h.1.2, beqObj_eq h.2]

end

mutual

theorem beqJ_refl : ∀ a : JVal, beqJ a a = true
  | .null => rfl
  | .bool b => by simp [beqJ]
  | .num n => by simp [beqJ]
  | .str s => by simp [beqJ]
  | .arr xs => by simp only [beqJ]; exact beqArr_refl xs
  | .obj kvs => by simp only [beqJ]; exact beqObj_refl kvs

theorem beqArr_refl : ∀ a : List JVal, beqArr a a = true
  | [] => rfl
  | x :: xs => by
      simp only [beqArr, Bool.and_eq_true]
      exact ⟨beqJ_refl x, beqArr_refl xs⟩

theorem beqObj_refl : ∀ a : List (String × JVal), beqObj a a = true
  | [] => rfl
  | (k, v) :: xs => by
      simp only [beqObj, Bool.and_eq_true]
      refine ⟨⟨?_, beqJ_refl v⟩, beqObj_refl xs⟩
      simp

end

instance : DecidableEq JVal := fun a b =>
  decidable_of_iff (beqJ a b = true) ⟨beqJ_eq, fun h => h ▸ beqJ_refl a⟩

/-- Python exceptions relevant to the sanitizer.  `main` catches
`json.JSONDecodeError` and `ValueError`; anything else (`AttributeError`,
`TypeError`) propagates and crashes the process. -/
inductive PyErr where
  | jsonDecode
  | valueError (msg : String)
  | uncaught (msg : String)
  deriving DecidableEq

abbrev Res (α : Type) := Except PyErr α

/-- The ASCII part of the whitespace set used by Python's `str.strip()`. -/
def pyWs (c : Char) : Bool :=
  c = ' ' || c = '\t' || c = '\n' || c = '\r' || c = '\u000B' || c = '\u000C'

/-- Drop the longest suffix whose characters satisfy `p`. -/
def dropTail (p : Char → Bool) (l : List Char) : List Char :=
  (l.reverse.dropWhile p).reverse

/-- Python `str.strip()` on a character list. -/
def pyStripL (l : List Char) : List Char :=
  dropTail pyWs (l.dropWhile pyWs)

/-- Python `str.strip()`. -/
def pyStrip (s : String) : String := ⟨pyStripL s.data⟩

/-- `normalize_whitespace` from the source: `value.strip()`. -/
def normalize_whitespace (s : String) : String := pyStrip s

/-- `strip_slack_mention` from the source: `value.lstrip("@").strip()`. -/
def strip_slack_mention (s : String) : String :=
  pyStrip ⟨s.data.dropWhile (· = '@')⟩

/-- `normalize_person_name` from the source. -/
def normalize_person_name (s : String) : String :=
  strip_slack_mention (normalize_whitespace s)

/-- Python `str.lower()` (ASCII case mapping). -/
def pyLower (s : String) : String := ⟨s.data.map Char.toLower⟩

/-- Python truthiness of a JSON value. -/
def truthy : JVal → Bool
  | .null => false
  | .bool b => b
  | .num n => n != 0
  | .str s => s != ""
  | .arr xs => !xs.isEmpty
  | .obj kvs => !kvs.isEmpty

def JVal.isObj : JVal → Bool
  | .obj _ => true
  | _ => false

/-- First-match association lookup (JSON objects built by the parser have
unique keys, mirroring Python dictionaries). -/
def lookupKV (k : String) : List (String × JVal) → Option JVal
  | [] => none
  | (k', v) :: rest => if k' = k then some v else lookupKV k rest

/-- `d.get(k)` returning `none` when `d` is not a dictionary (callers guard
that case or crash, which is modelled at each call site). -/
def jGet (v : JVal) (k : String) : Option JVal :=
  match v with
  | .obj kvs => lookupKV k kvs
  | _ => none

/-- `k in d`. -/
def hasKey (v : JVal) (k : String) : Bool := (jGet v k).isSome

/-- `d.get(k, default)`. -/
def jGetD (v : JVal) (k : String) (d : JVal) : JVal := (jGet v k).getD d

/-- Python `a or b`. -/
def pyOr (a b : JVal) : JVal := if truthy a then a else b

/-- Python `a or b` on strings. -/
def pyOrS (a b : String) : String := if a ≠ "" then a else b

/-- Replace the value stored under `k`, keeping the key's position, or
append the pair — exactly how assignment into a Python dictionary behaves. -/
def setKV (k : String) (nv : JVal) : List (String × JVal) → List (String × JVal)
  | [] => [(k, nv)]
  | (k', v) :: rest => if k' = k then (k, nv) :: rest else (k', v) :: setKV k nv rest

/-- `d[k] = nv` (no-op on non-dictionaries; every assignment in the source
happens after a dictionary check). -/
def jSet (v : JVal) (k : String) (nv : JVal) : JVal :=
  match v with
  | .obj kvs => .obj (setKV k nv kvs)
  | _ => v

/-- A single-quote character (used when rendering Python `repr`). -/
def sq : Char := Char.ofNat 39

def sqs : String := String.singleton sq

def joinSep (sep : String) : List String → String
  | [] => ""
  | [x] => x
  | x :: rest => x ++ sep ++ joinSep sep rest

mutual

/-- Python `repr` of a parsed JSON value (quote-escaping corner cases of
string `repr` are not modelled; the sanitizer only reaches this through
`str()` coercion of `login`/`slack_id` values). -/
def pyReprJ : JVal → String
  | .null => "None"
  | .bool true => "True"
  | .bool false => "False"
  | .num n => toString n
  | .str s => sqs ++ s ++ sqs
  | .arr xs => "[" ++ joinSep ", " (pyReprArr xs) ++ "]"
  | .obj kvs => "\x7b" ++ joinSep ", " (pyReprObj kvs) ++ "\x7d"

def pyReprArr : List JVal → List String
  | [] => []
  | x :: xs => pyReprJ x :: pyReprArr xs

def pyReprObj : List (String × JVal) → List String
  | [] => []
  | (k, v) :: kvs => (sqs ++ k ++ sqs ++ ": " ++ pyReprJ v) :: pyReprObj kvs

end

/-- Python `str()` of a parsed JSON value. -/
def pyStrOf : JVal → String
  | .str s => s
  | v => pyReprJ v

/-- Evaluate a string method receiver: non-strings raise `AttributeError`. -/
def asStrM (note : String) : JVal → Res String
  | .str s => .ok s
  | _ => .error (.uncaught note)

/-- `extract_identity` from the source: the `(slack_id, lowercased
normalized name)` identity key of a person-like dictionary. -/
def extract_identity (person : JVal) : Res (String × String) := do
  if !person.isObj then .error (.uncaught "AttributeError: get") else do
    let sid ← asStrM "AttributeError: strip" (pyOr (jGetD person "slack_id" .null) (.str ""))
    let slack_id := pyStrip sid
    let nm ← asStrM "AttributeError: strip"
      (pyOr (pyOr (jGetD person "name" .null) (jGetD person "login" .null)) (.str ""))
    let name := normalize_person_name nm
    .ok (slack_id, if name = "" then "" else pyLower name)

/-- The Python types the validator checks against. -/
inductive PyType where
  | dict
  | list
  | str

def typeName : PyType → String
  | .dict => "dict"
  | .list => "list"
  | .str => "str"

def isType (v : JVal) : PyType → Bool
  | .dict => v.isObj
  | .list => match v with | .arr _ => true | _ => false
  | .str => match v with | .str _ => true | _ => false

/-- `require_type` from the source. -/
def require_type (v : JVal) (t : PyType) (path : String) : Res Unit :=
  if isType v t then .ok ()
  else .error (.valueError (path ++ " must be of type " ++ typeName t))

/-- `require_string` from the source: type-check, trim, and (unless
`allowEmpty`) reject empty results; returns the trimmed copy. -/
def require_string (v : JVal) (path : String) (allowEmpty : Bool) : Res String := do
  require_type v .str path
  let s := pyStrip (match v with | .str s => s | _ => "")
  if !allowEmpty && s = "" then .error (.valueError (path ++ " must be a non-empty string"))
  else .ok s

/-- One clause of `normalize_identity_fields`: if `k` is present and not
`None`, replace it with `f(str(value))`. -/
def normField (k : String) (f : String → String) (person : JVal) : JVal :=
  match jGet person k with
  | some .null => person
  | none => person
  | some v => jSet person k (.str (f (pyStrOf v)))

/-- `normalize_identity_fields` from the source. -/
def normalize_identity_fields (person : JVal) : JVal :=
  normField "slack_id" normalize_whitespace
    (normField "login" normalize_whitespace
      (normField "name" normalize_person_name person))

/-- The final step of `validate_person` (source lines 88–89): re-validate a
present, non-`None` `slack_id` as a string (empty allowed) and store the
trimmed copy. -/
def validate_person_slack (p2 : JVal) (path : String) : Res JVal :=
  match jGet p2 "slack_id" with
  | some .null => .ok p2
  | none => .ok p2
  | some v => do
      let s ← require_string v (path ++ ".slack_id") true
      .ok (jSet p2 "slack_id" (.str s))

/-- `validate_person` from the source, returning the mutated record. -/
def validate_person (person : JVal) (path : String) : Res JVal := do
  require_type person .dict path
  if !hasKey person "name" then
    .error (.valueError (path ++ ".name is required"))
  else do
    let t ← require_string (jGetD person "name" .null) (path ++ ".name") false
    validate_person_slack
      (normalize_identity_fields (jSet person "name" (.str (normalize_person_name t)))) path

def asList : JVal → List JVal
  | .arr xs => xs
  | _ => []

def validate_person_list_from (path : String) : Nat → List JVal → Res (List JVal)
  | _, [] => .ok []
  | i, e :: rest => do
      let e' ← validate_person e (path ++ "[" ++ toString i ++ "]")
      let rest' ← validate_person_list_from path (i + 1) rest
      .ok (e' :: rest')

/-- `validate_person_list` from the source, returning the mutated list. -/
def validate_person_list (v : JVal) (path : String) : Res (List JVal) := do
  require_type v .list path
  validate_person_list_from path 0 (asList v)

/-- The approver id/name sets accumulated at the start of
`check_no_overlap`. -/
def approver_sets : List JVal → Res (List String × List String)
  | [] => .ok ([], [])
  | a :: rest => do
      let (aid, aname) ← extract_identity a
      let (ids, names) ← approver_sets rest
      .ok ((if aid ≠ "" then aid :: ids else ids),
           (if aname ≠ "" then aname :: names else names))

def overlap_scan (authorId authorName : String) (ids names : List String)
    (path : String) : List JVal → Res Unit
  | [] => .ok ()
  | dev :: rest => do
      let (devId, devName) ← extract_identity dev
      if (authorId ≠ "" && devId ≠ "" && authorId = devId)
          || (authorName ≠ "" && devName ≠ "" && authorName = devName) then
        .error (.valueError (path ++ ".relevant_developers contains the commit author ("
          ++ pyOrS authorName authorId ++ "), which is not allowed"))
      else if (devId ≠ "" && devId ∈ ids) || (devName ≠ "" && devName ∈ names) then
        .error (.valueError (path ++ ".relevant_developers contains an approver ("
          ++ pyOrS devName devId ++ "), which is not allowed"))
      else
        overlap_scan authorId authorName ids names path rest

/-- `check_no_overlap` from the source: no `relevant_developers` entry may
match the commit author or any approver. -/
def check_no_overlap (relevantDevs : List JVal) (author : JVal)
    (approvers : List JVal) (path : String) : Res Unit := do
  let (authorId, authorName) ← extract_identity author
  let (ids, names) ← approver_sets approvers
  overlap_scan authorId authorName ids names path relevantDevs

/-- The incremental duplicate scan over a `relevant_developers` list
(used both inside `validate_commit` and at the top level of
`validate_payload`, with different messages). -/
def scan_dups (mkIdMsg mkNameMsg : String → String)
    (seenIds seenNames : List String) : List JVal → Res Unit
  | [] => .ok ()
  | dev :: rest => do
      let (devId, devName) ← extract_identity dev
      if devId ≠ "" && devId ∈ seenIds then
        .error (.valueError (mkIdMsg devId))
      else if devName ≠ "" && devName ∈ seenNames then
        .error (.valueError (mkNameMsg devName))
      else
        scan_dups mkIdMsg mkNameMsg
          (if devId ≠ "" then devId :: seenIds else seenIds)
          (if devName ≠ "" then devName :: seenNames else seenNames) rest

def dupIdMsg (path : String) (devId : String) : String :=
  path ++ ".relevant_developers contains duplicate entry (slack_id: " ++ devId ++ ")"

def dupNameMsg (path : String) (devName : String) : String :=
  path ++ ".relevant_developers contains duplicate entry (name: " ++ devName ++ ")"

def topDupIdMsg (devId : String) : String :=
  "Top-level relevant_developers contains duplicate entry (slack_id: " ++ devId ++ ")"

def topDupNameMsg (devName : String) : String :=
  "Top-level relevant_developers contains duplicate entry (name: " ++ devName ++ ")"

def req_string_list (path : String) : Nat → List JVal → Res Unit
  | _, [] => .ok ()
  | i, e :: rest => do
      let _ ← require_string e (path ++ "[" ++ toString i ++ "]") false
      req_string_list path (i + 1) rest

/-- The `relevant_developers` block of `validate_commit` (source lines
138–159), acting on the commit `c2` as mutated so far: validate the list,
store it, scan it for duplicates, and check it against the (stored) author
and approvers. -/
def validate_commit_devs (c2 : JVal) (devs : List JVal) (path : String) : Res JVal := do
  scan_dups (dupIdMsg path) (dupNameMsg path) [] [] devs
  check_no_overlap devs (jGetD (jSet c2 "relevant_developers" (.arr devs)) "author" .null)
    (asList (jGetD (jSet c2 "relevant_developers" (.arr devs)) "approvers" (.arr []))) path
  pure (jSet c2 "relevant_developers" (.arr devs))

/-- The optional-`url` check of `validate_commit` (source lines 131–132). -/
def check_url (commit : JVal) (path : String) : Res Unit :=
  match jGet commit "url" with
  | some .null => .ok ()
  | none => .ok ()
  | some u => do let _ ← require_string u (path ++ ".url") false; .ok ()

/-- The optional-`approvers` block of `validate_commit` (source lines
136–137), acting on the commit as mutated so far. -/
def validate_commit_approvers (c1 : JVal) (path : String) : Res JVal :=
  if hasKey c1 "approvers" then do
    let aps ← validate_person_list (jGetD c1 "approvers" .null) (path ++ ".approvers")
    pure (jSet c1 "approvers" (.arr aps))
  else pure c1

/-- The optional-`relevant_developers` block of `validate_commit` (source
lines 138–159). -/
def validate_commit_rdevs (c2 : JVal) (path : String) : Res JVal :=
  if hasKey c2 "relevant_developers" then do
    let devs ← validate_person_list (jGetD c2 "relevant_developers" .null)
      (path ++ ".relevant_developers")
    validate_commit_devs c2 devs path
  else pure c2

/-- The optional-`relevant_files` block of `validate_commit` (source lines
160–163). -/
def validate_commit_files (c3 : JVal) (path : String) : Res JVal :=
  if hasKey c3 "relevant_files" then do
    require_type (jGetD c3 "relevant_files" .null) .list (path ++ ".relevant_files")
    req_string_list (path ++ ".relevant_files") 0 (asList (jGetD c3 "relevant_files" .null))
    .ok c3
  else .ok c3

/-- `validate_commit` body, with the dotted path string passed in. -/
def validate_commit_at (commit : JVal) (path : String) : Res JVal := do
  require_type commit .dict path
  if !hasKey commit "hash" then .error (.valueError (path ++ ".hash is required"))
  else do
    let _ ← require_string (jGetD commit "hash" .null) (path ++ ".hash") false
    check_url commit path
    if !hasKey commit "author" then .error (.valueError (path ++ ".author is required"))
    else do
      let author' ← validate_person (jGetD commit "author" .null) (path ++ ".author")
      let c2 ← validate_commit_approvers (jSet commit "author" author') path
      let c3 ← validate_commit_rdevs c2 path
      validate_commit_files c3 path

/-- `validate_commit` from the source, returning the mutated commit. -/
def validate_commit (commit : JVal) (index : Nat) : Res JVal :=
  validate_commit_at commit ("commits[" ++ toString index ++ "]")

/-- Python iteration over a JSON value (`for x in v`): lists yield their
elements, strings their characters, dictionaries their keys; everything
else raises `TypeError`. -/
def jIter : JVal → Res (List JVal)
  | .arr xs => .ok xs
  | .str s => .ok (s.data.map fun c => .str (String.singleton c))
  | .obj kvs => .ok (kvs.map fun kv => .str kv.fst)
  | _ => .error (.uncaught "TypeError: not iterable")

def approver_keys : List JVal → Res (List (String × String))
  | [] => .ok []
  | a :: rest => do
      let (aid, aname) ← extract_identity a
      let restKeys ← approver_keys rest
      .ok ((if aid ≠ "" then [("id", aid)] else [])
        ++ (if aname ≠ "" then [("name", pyLower aname)] else []) ++ restKeys)

/-- The pre-pass of `validate_payload` that collects every commit author
and approver identity into the `all_authors_approvers` set (it runs on the
raw, not-yet-normalized commit records). -/
def build_restricted : List JVal → Res (List (String × String))
  | [] => .ok []
  | commit :: rest => do
      if !commit.isObj then .error (.uncaught "AttributeError: get") else do
        let author := jGetD commit "author" (.obj [])
        let (aid, aname) ← extract_identity author
        let approvers ← jIter (jGetD commit "approvers" (.arr []))
        let apKeys ← approver_keys approvers
        let restKeys ← build_restricted rest
        .ok ((if aid ≠ "" then [("id", aid)] else [])
          ++ (if aname ≠ "" then [("name", aname)] else []) ++ apKeys ++ restKeys)

def validate_commits_from : Nat → List JVal → Res (List JVal)
  | _, [] => .ok []
  | i, c :: rest => do
      let c' ← validate_commit c i
      let rest' ← validate_commits_from (i + 1) rest
      .ok (c' :: rest')

def top_overlap_scan (restricted : List (String × String)) : List JVal → Res Unit
  | [] => .ok ()
  | dev :: rest => do
      let (devId, devName) ← extract_identity dev
      if (devId ≠ "" && ("id", devId) ∈ restricted)
          || (devName ≠ "" && ("name", pyLower devName) ∈ restricted) then
        .error (.valueError ("Top-level relevant_developers contains a commit author or approver ("
          ++ pyOrS devName devId ++ "), which is not allowed"))
      else top_overlap_scan restricted rest

def req_top_key (payload : JVal) (k : String) : Res Unit :=
  if !hasKey payload k then
    .error (.valueError ("Field " ++ sqs ++ k ++ sqs ++ " is required at the top level"))
  else do
    let _ ← require_string (jGetD payload k .null) k false
    .ok ()

def opt_top_str (payload : JVal) (k : String) : Res Unit :=
  if hasKey payload k then do
    let _ ← require_string (jGetD payload k .null) k false
    .ok ()
  else .ok ()

/-- The top-level `relevant_developers` block of `validate_payload`
(source lines 200–221), acting on the payload with its commits already
replaced by their validated versions. -/
def validate_payload_rdevs (p1 : JVal) (commitsV : List JVal)
    (restricted : List (String × String)) : Res JVal :=
  if hasKey p1 "relevant_developers" then do
    let devs ← validate_person_list (jGetD p1 "relevant_developers" .null)
      "relevant_developers"
    scan_dups topDupIdMsg topDupNameMsg [] [] devs
    if !commitsV.isEmpty then do
      top_overlap_scan restricted devs
      pure (jSet p1 "relevant_developers" (.arr devs))
    else pure (jSet p1 "relevant_developers" (.arr devs))
  else pure p1

/-- The top-level `relevant_files` check (source lines 223–226). -/
def check_top_files (p2 : JVal) : Res Unit :=
  if hasKey p2 "relevant_files" then do
    require_type (jGetD p2 "relevant_files" .null) .list "relevant_files"
    req_string_list "relevant_files" 0 (asList (jGetD p2 "relevant_files" .null))
  else .ok ()

/-- The optional-`notes` check (source lines 227–228), returning the
payload unchanged. -/
def check_notes (p2 : JVal) : Res JVal :=
  match jGet p2 "notes" with
  | some .null => .ok p2
  | none => .ok p2
  | some v => do
      let _ ← require_string v "notes" true
      .ok p2

/-- `validate_payload` from the source, returning the mutated payload. -/
def validate_payload (payload : JVal) : Res JVal := do
  require_type payload .dict "root"
  req_top_key payload "case"
  req_top_key payload "scenario"
  req_top_key payload "failure_message"
  req_top_key payload "slack_message"
  opt_top_str payload "failing_run_url"
  opt_top_str payload "failing_run_label"
  if !hasKey payload "commits" then
    .error (.valueError ("Field " ++ sqs ++ "commits" ++ sqs
      ++ " is required at the top level (can be an empty array)"))
  else do
    require_type (jGetD payload "commits" .null) .list "commits"
    let restricted ← build_restricted (asList (jGetD payload "commits" .null))
    let commits' ← validate_commits_from 0 (asList (jGetD payload "commits" .null))
    let p2 ← validate_payload_rdevs (jSet payload "commits" (.arr commits')) commits' restricted
    check_top_files p2
    check_notes p2

/-! ### Serialization: `json.dumps(v, indent=2, sort_keys=True)` -/

def hexDig (n : Nat) : Char :=
  if n < 10 then Char.ofNat (48 + n) else Char.ofNat (87 + n)

def hex4 (n : Nat) : List Char :=
  [hexDig (n / 4096 % 16), hexDig (n / 256 % 16), hexDig (n / 16 % 16), hexDig (n % 16)]

/-- One character of `json.dumps` output with the default
`ensure_ascii=True` escaping. -/
def escChar (c : Char) : List Char :=
  if c = '"' then ['\\', '"']
  else if c = '\\' then ['\\', '\\']
  else if c = '\n' then ['\\', 'n']
  else if c = '\r' then ['\\', 'r']
  else if c = '\t' then ['\\', 't']
  else if c = Char.ofNat 8 then ['\\', 'b']
  else if c = Char.ofNat 12 then ['\\', 'f']
  else if 32 ≤ c.toNat && c.toNat ≤ 126 then [c]
  else if c.toNat < 65536 then '\\' :: 'u' :: hex4 c.toNat
  else
    let m := c.toNat - 65536
    ('\\' :: 'u' :: hex4 (55296 + m / 1024)) ++ ('\\' :: 'u' :: hex4 (56320 + m % 1024))

def escString (s : String) : List Char :=
  '"' :: (s.data.map escChar).flatten ++ ['"']

/-- Lexicographic comparison by code point — how Python compares strings
when `sort_keys=True` sorts a dictionary. -/
def listCharLt : List Char → List Char → Bool
  | [], [] => false
  | [], _ :: _ => true
  | _ :: _, [] => false
  | a :: as, b :: bs =>
      Nat.blt a.toNat b.toNat || (a == b && listCharLt as bs)

def strLt (a b : String) : Bool := listCharLt a.data b.data

def insSortedKV (kv : String × JVal) : List (String × JVal) → List (String × JVal)
  | [] => [kv]
  | h :: t => if strLt kv.1 h.1 then kv :: h :: t else h :: insSortedKV kv t

/-- Stable insertion sort by key — the effect of `sort_keys=True`. -/
def sortKVs : List (String × JVal) → List (String × JVal)
  | [] => []
  | kv :: rest => insSortedKV kv (sortKVs rest)

mutual

/-- Recursively sort every object's keys (what `sort_keys=True` makes
observable of a document). -/
def sortTree : JVal → JVal
  | .obj kvs => .obj (sortKVs (sortTreeObj kvs))
  | .arr xs => .arr (sortTreeArr xs)
  | .null => .null
  | .bool b => .bool b
  | .num n => .num n
  | .str s => .str s

def sortTreeArr : List JVal → List JVal
  | [] => []
  | x :: xs => sortTree x :: sortTreeArr xs

def sortTreeObj : List (String × JVal) → List (String × JVal)
  | [] => []
  | (k, v) :: kvs => (k, sortTree v) :: sortTreeObj kvs

end

def indentC (lvl : Nat) : List Char := List.replicate (2 * lvl) ' '

mutual

/-- Render a (key-sorted) document the way
`json.dumps(v, indent=2, sort_keys=True)` lays it out. -/
def renderJ : JVal → Nat → List Char
  | .null, _ => "null".data
  | .bool true, _ => "true".data
  | .bool false, _ => "false".data
  | .num n, _ => (toString n).data
  | .str s, _ => escString s
  | .arr [], _ => "[]".data
  | .arr (x :: xs), lvl =>
      '[' :: '\n' :: renderArrItems (x :: xs) (lvl + 1) ++ '\n' :: indentC lvl ++ [']']
  | .obj [], _ => "\x7b\x7d".data
  | .obj (kv :: kvs), lvl =>
      '\x7b' :: '\n' :: renderObjItems (kv :: kvs) (lvl + 1) ++ '\n' :: indentC lvl ++ ['\x7d']

def renderArrItems : List JVal → Nat → List Char
  | [], _ => []
  | [x], lvl => indentC lvl ++ renderJ x lvl
  | x :: y :: rest, lvl =>
      indentC lvl ++ renderJ x lvl ++ ',' :: '\n' :: renderArrItems (y :: rest) lvl

def renderObjItems : List (String × JVal) → Nat → List Char
  | [], _ => []
  | [(k, v)], lvl => indentC lvl ++ escString k ++ ':' :: ' ' :: renderJ v lvl
  | (k, v) :: kv :: rest, lvl =>
      indentC lvl ++ escString k ++ ':' :: ' ' :: renderJ v lvl
        ++ ',' :: '\n' :: renderObjItems (kv :: rest) lvl

end

/-- `json.dumps(v, indent=2, sort_keys=True)`. -/
def json_dumps (v : JVal) : List Char := renderJ (sortTree v) 0

/-! ### Parsing: `json.loads` (strict mode, integer numbers) -/

def jsonWs (c : Char) : Bool := c = ' ' || c = '\t' || c = '\n' || c = '\r'

def skipWs (s : List Char) : List Char := s.dropWhile jsonWs

def hexVal (c : Char) : Option Nat :=
  if '0' ≤ c && c ≤ '9' then some (c.toNat - 48)
  else if 'a' ≤ c && c ≤ 'f' then some (c.toNat - 87)
  else if 'A' ≤ c && c ≤ 'F' then some (c.toNat - 55)
  else none

def hex4Val (a b c d : Char) : Option Nat := do
  let x ← hexVal a
  let y ← hexVal b
  let z ← hexVal c
  let w ← hexVal d
  some (x * 4096 + y * 256 + z * 16 + w)

/-- Parse the body of a JSON string after the opening quote, returning the
decoded characters and the input after the closing quote.  Lone surrogates
(which Python would keep) have no `Char` counterpart and fail. -/
def parseStrBody : List Char → Option (List Char × List Char)
  | [] => none
  | '"' :: rest => some ([], rest)
  | '\\' :: '"' :: rest => do
      let (cs, r) ← parseStrBody rest
      some ('"' :: cs, r)
  | '\\' :: '\\' :: rest => do
      let (cs, r) ← parseStrBody rest
      some ('\\' :: cs, r)
  | '\\' :: '/' :: rest => do
      let (cs, r) ← parseStrBody rest
      some ('/' :: cs, r)
  | '\\' :: 'b' :: rest => do
      let (cs, r) ← parseStrBody rest
      some (Char.ofNat 8 :: cs, r)
  | '\\' :: 'f' :: rest => do
      let (cs, r) ← parseStrBody rest
      some (Char.ofNat 12 :: cs, r)
  | '\\' :: 'n' :: rest => do
      let (cs, r) ← parseStrBody rest
      some ('\n' :: cs, r)
  | '\\' :: 'r' :: rest => do
      let (cs, r) ← parseStrBody rest
      some ('\r' :: cs, r)
  | '\\' :: 't' :: rest => do
      let (cs, r) ← parseStrBody rest
      some ('\t' :: cs, r)
  | '\\' :: 'u' :: a :: b :: c :: d :: rest => do
      let n ← hex4Val a b c d
      if 55296 ≤ n && n ≤ 56319 then
        match rest with
        | '\\' :: 'u' :: e :: f :: g :: h :: rest2 => do
            let m ← hex4Val e f g h
            if 56320 ≤ m && m ≤ 57343 then do
              let (cs, r) ← parseStrBody rest2
              some (Char.ofNat (65536 + (n - 55296) * 1024 + (m - 56320)) :: cs, r)
            else none
        | _ => none
      else if 56320 ≤ n && n ≤ 57343 then none
      else do
        let (cs, r) ← parseStrBody rest
        some (Char.ofNat n :: cs, r)
  | '\\' :: _ => none
  | c :: rest =>
      if c.toNat < 32 then none
      else do
        let (cs, r) ← parseStrBody rest
        some (c :: cs, r)

def isDigitC (c : Char) : Bool := '0' ≤ c && c ≤ '9'

def digitsToNat (ds : List Char) : Nat :=
  ds.foldl (fun acc c => acc * 10 + (c.toNat - 48)) 0

/-- Parse a JSON integer literal; fractional or exponent parts are outside
the model and fail. -/
def parseNumber (s : List Char) : Option (JVal × List Char) :=
  let (neg, s1) := match s with
    | '-' :: r => (true, r)
    | _ => (false, s)
  let ds := s1.takeWhile isDigitC
  let r := s1.dropWhile isDigitC
  match ds with
  | [] => none
  | '0' :: _ :: _ => none
  | _ =>
      match r with
      | '.' :: _ => none
      | 'e' :: _ => none
      | 'E' :: _ => none
      | _ => some (.num (if neg then -(digitsToNat ds : Int) else (digitsToNat ds : Int)), r)

mutual

/-- Fuel-indexed recursive-descent parser for the JSON fragment the
sanitizer handles; the fuel passed at top level always suffices because
every recursive call consumes at least one input character. -/
def parseVal : Nat → List Char → Option (JVal × List Char)
  | 0, _ => none
  | fuel + 1, s =>
      match skipWs s with
      | '\x7b' :: rest =>
          (match skipWs rest with
           | '\x7d' :: r => some (.obj [], r)
           | s' => parseMembers fuel s' [])
      | '[' :: rest =>
          (match skipWs rest with
           | ']' :: r => some (.arr [], r)
           | s' => parseElems fuel s' [])
      | '"' :: rest => do
          let (cs, r) ← parseStrBody rest
          some (.str ⟨cs⟩, r)
      | 't' :: 'r' :: 'u' :: 'e' :: rest => some (.bool true, rest)
      | 'f' :: 'a' :: 'l' :: 's' :: 'e' :: rest => some (.bool false, rest)
      | 'n' :: 'u' :: 'l' :: 'l' :: rest => some (.null, rest)
      | s' => parseNumber s'

def parseMembers : Nat → List Char → List (String × JVal) → Option (JVal × List Char)
  | 0, _, _ => none
  | fuel + 1, s, acc =>
      match skipWs s with
      | '"' :: rest => do
          let (kcs, r1) ← parseStrBody rest
          match skipWs r1 with
          | ':' :: r2 => do
              let (v, r3) ← parseVal fuel r2
              let acc' := setKV ⟨kcs⟩ v acc
              match skipWs r3 with
              | ',' :: r4 => parseMembers fuel r4 acc'
              | '\x7d' :: r4 => some (.obj acc', r4)
              | _ => none
          | _ => none
      | _ => none

def parseElems : Nat → List Char → List JVal → Option (JVal × List Char)
  | 0, _, _ => none
  | fuel + 1, s, acc => do
      let (v, r) ← parseVal fuel s
      match skipWs r with
      | ',' :: r2 => parseElems fuel r2 (acc ++ [v])
      | ']' :: r2 => some (.arr (acc ++ [v]), r2)
      | _ => none

end

/-- `json.loads` (raising `json.JSONDecodeError` on failure). -/
def json_loads (s : List Char) : Res JVal :=
  match parseVal (s.length + 1) s with
  | some (v, rest) => if (skipWs rest).isEmpty then .ok v else .error .jsonDecode
  | none => .error .jsonDecode

/-! ### Candidate generation: `normalize_candidates` -/

/-- After a literal `<` (and optional `/` handled by the caller): if the
input continues with `lit` followed by a `>`-terminated run of non-`>`
characters, return the input after that `>` (the greedy `[^>]*>` of the
wrapper-tag regexes). -/
def matchTagFrom (lit : List Char) (s : List Char) : Option (List Char) :=
  if lit.isPrefixOf s then
    match (s.drop lit.length).dropWhile (· ≠ '>') with
    | '>' :: r => some r
    | _ => none
  else none

/-- Left-to-right, non-overlapping removal of tags — the effect of
`re.sub(r"<\/?content[^>]*>", "", s)` (with `allowSlash`) and
`re.sub(r"<parameter[^>]*>", "", s)` (without). -/
def stripTagsGo (lit : List Char) (allowSlash : Bool) : Nat → List Char → List Char
  | 0, s => s
  | _ + 1, [] => []
  | fuel + 1, '<' :: rest =>
      let attempt0 := match rest with
        | '/' :: r2 => if allowSlash then matchTagFrom lit r2 else matchTagFrom lit rest
        | _ => matchTagFrom lit rest
      (match attempt0 with
       | some r => stripTagsGo lit allowSlash fuel r
       | none => '<' :: stripTagsGo lit allowSlash fuel rest)
  | fuel + 1, c :: rest => c :: stripTagsGo lit allowSlash fuel rest

def stripContentTags (s : List Char) : List Char :=
  stripTagsGo "content".data true (s.length + 1) s

def stripParamTags (s : List Char) : List Char :=
  stripTagsGo "parameter".data false (s.length + 1) s

/-- `raw[raw.find("\x7b") : raw.rfind("\x7d") + 1]` when both exist in order. -/
def braceSlice (raw : List Char) : Option (List Char) :=
  match raw.findIdx? (· = '\x7b') with
  | none => none
  | some i =>
      match raw.reverse.findIdx? (· = '\x7d') with
      | none => none
      | some k =>
          let j := raw.length - 1 - k
          if i < j then some ((raw.drop i).take (j + 1 - i)) else none

/-- The dedup-and-trim loop of `normalize_candidates`: membership is tested
on the raw (untrimmed) candidate, while the appended entry is trimmed. -/
def dedup_trim (seen : List (List Char)) : List (List Char) → List (List Char)
  | [] => []
  | item :: rest =>
      if item ∈ seen then dedup_trim seen rest
      else pyStripL item :: dedup_trim (item :: seen) rest

/-- `normalize_candidates` from the source. -/
def normalize_candidates (raw : List Char) : List (List Char) :=
  let stripped := stripParamTags (stripContentTags raw)
  let cands := [raw, stripped] ++ (match braceSlice raw with
    | some b => [b]
    | none => [])
  dedup_trim [] cands

/-! ### The driver: `main` on a given file content -/

/-- One candidate attempt: parse, validate, serialize. -/
def attempt (c : List Char) : Res (List Char) := do
  let v ← json_loads c
  let v' ← validate_payload v
  .ok (json_dumps v' ++ ['\n'])

/-- The exception classes `main` catches. -/
def catchable : PyErr → Bool
  | .jsonDecode => true
  | .valueError _ => true
  | .uncaught _ => false

/-- Outcome of one run of `main` on a file that exists:  `written` (exit 0,
file overwritten), `failed` (exit 1, file untouched, last error printed),
or `crashed` (uncaught exception). -/
inductive MainRes where
  | written (content : List Char)
  | failed (lastErr : Option PyErr)
  | crashed (e : PyErr)
  deriving DecidableEq

def run_candidates : List (List Char) → Option PyErr → MainRes
  | [], lastErr => .failed lastErr
  | c :: rest, lastErr =>
      if c.isEmpty then run_candidates rest lastErr
      else
        match attempt c with
        | .ok out => .written out
        | .error e => if catchable e then run_candidates rest (some e) else .crashed e

/-- The candidate loop of `main`, from file content to outcome. -/
def run_sanitizer (raw : List Char) : MainRes :=
  run_candidates (normalize_candidates raw) none

/-- What gets written back over the target file. -/
def written_output : MainRes → Option (List Char)
  | .written o => some o
  | _ => none

def exit_code : MainRes → Nat
  | .written _ => 0
  | .failed _ => 1
  | .crashed _ => 1

/-! ### Concrete documents used to settle the claims -/

/-- A minimal person record. -/
def person (nm : String) : JVal := .obj [("name", .str nm)]

/-- A payload whose second commit lists the first commit's author among its
`relevant_developers` (a cross-commit identity match). -/
def exCross : JVal := .obj [
  ("case", .str "c"), ("scenario", .str "s"), ("failure_message", .str "f"),
  ("slack_message", .str "m"),
  ("commits", .arr [
    .obj [("hash", .str "h1"), ("author", person "alice")],
    .obj [("hash", .str "h2"), ("author", person "bob"),
          ("relevant_developers", .arr [person "alice"])]])]

/-- A payload whose single commit has two approvers with the same name. -/
def exDupApprovers : JVal := .obj [
  ("case", .str "c"), ("scenario", .str "s"), ("failure_message", .str "f"),
  ("slack_message", .str "m"),
  ("commits", .arr [
    .obj [("hash", .str "h1"), ("author", person "bob"),
          ("approvers", .arr [person "alice", person "alice"])]])]

/-- The same payload with the duplicate pair under `relevant_developers`
instead of `approvers`. -/
def exDupDevs : JVal := .obj [
  ("case", .str "c"), ("scenario", .str "s"), ("failure_message", .str "f"),
  ("slack_message", .str "m"),
  ("commits", .arr [
    .obj [("hash", .str "h1"), ("author", person "bob"),
          ("relevant_developers", .arr [person "alice", person "alice"])]])]

/-- A payload whose top-level `relevant_developers` has a duplicated pair
followed by a non-dictionary entry. -/
def exSchemaShadow : JVal := .obj [
  ("case", .str "c"), ("scenario", .str "s"), ("failure_message", .str "f"),
  ("slack_message", .str "m"),
  ("commits", .arr []),
  ("relevant_developers", .arr [person "alice", person "alice", .num 5])]

/-- A payload whose top-level `relevant_developers` holds two entries both
named `"@ @"` — a shared, non-empty normalized name (`"@"`). -/
def exDupAtNames : JVal := .obj [
  ("case", .str "c"), ("scenario", .str "s"), ("failure_message", .str "f"),
  ("slack_message", .str "m"),
  ("commits", .arr []),
  ("relevant_developers", .arr [person "@ @", person "@ @"])]

/-- What `validate_payload` returns for `exDupAtNames`: both names have
been rewritten to the empty string. -/
def exDupAtNamesOut : JVal := .obj [
  ("case", .str "c"), ("scenario", .str "s"), ("failure_message", .str "f"),
  ("slack_message", .str "m"),
  ("commits", .arr []),
  ("relevant_developers", .arr [person "", person ""])]

/-- File content whose only person is named `"@"`. -/
def rawAtName : String :=
  "\x7b\"case\": \"c\", \"scenario\": \"s\", \"failure_message\": \"f\", \"slack_message\": \"m\", \"commits\": [\x7b\"hash\": \"h\", \"author\": \x7b\"name\": \"@\"\x7d\x7d]\x7d"

/-- What the sanitizer writes for `rawAtName`: the author's name has been
normalized to the empty string. -/
def outAtName : String :=
  "\x7b\n  \"case\": \"c\",\n  \"commits\": [\n    \x7b\n      \"author\": \x7b\n        \"name\": \"\"\n      \x7d,\n      \"hash\": \"h\"\n    \x7d\n  ],\n  \"failure_message\": \"f\",\n  \"scenario\": \"s\",\n  \"slack_message\": \"m\"\n\x7d\n"

instance {ε α : Type} [DecidableEq ε] [DecidableEq α] : DecidableEq (Except ε α)
  | .ok a, .ok b =>
      if h : a = b then isTrue (by rw [h])
      else isFalse (by intro hc; cases hc; exact h rfl)
  | .error a, .error b =>
      if h : a = b then isTrue (by rw [h])
      else isFalse (by intro hc; cases hc; exact h rfl)
  | .ok _, .error _ => isFalse (by intro hc; cases hc)
  | .error _, .ok _ => isFalse (by intro hc; cases hc)

end Sanitize

namespace Sanitize

/-! ## Claims -/

/-- C1, counterexample.  The claim says an accepted payload can contain no
`relevant_developers` entry matching the author of *any* commit.  In
`exCross`, commit 1 lists `person "alice"` — identity-equal (non-empty
normalized name `"alice"`) to commit 0's author — among its
`relevant_developers`, yet `validate_payload` accepts the payload: the
per-commit overlap check only looks at the commit's own author and
approvers, and the payload-wide restricted set is only applied to the
top-level `relevant_developers` list. -/
theorem C1_counterexample :
    validate_payload exCross = .ok exCross ∧
    (asList (jGetD exCross "commits" .null)).map (fun c => jGetD c "author" .null) =
      [person "alice", person "bob"] ∧
    (asList (jGetD exCross "commits" .null)).map
      (fun c => asList (jGetD c "relevant_developers" (.arr []))) =
      [[], [person "alice"]] ∧
    extract_identity (person "alice") = .ok ("", "alice") :=
  ⟨rfl, rfl, rfl, rfl⟩

/-- C3, code bug.  The claim (from the spec) requires every payload whose
`relevant_developers` list carries two entries sharing a non-empty
normalized name to be rejected with a duplicate error.  The code violates
it: in `exDupAtNames` both entries are named `"@ @"`, whose normalized
name (trim, strip the leading `@` run, lowercase) is the non-empty `"@"`,
yet `validate_payload` *accepts* the payload — the name is normalized a
second time by `normalize_identity_fields` (`"@ @"` → `"@"` → `""`), so
the duplicate scan sees only empty identity keys and never fires.  The
sanitizer thus emits a payload with two spec-identical developers, so the
code, not the claim, is wrong.  A second divergence: even when the scan
would fire, a malformed later entry in the same list (`exSchemaShadow`)
is reported as a *type* error instead of the earlier duplicate, because
`validate_person_list` runs before the scan. -/
theorem C3_code_bug :
    validate_payload exDupAtNames = .ok exDupAtNamesOut ∧
    asList (jGetD exDupAtNames "relevant_developers" .null) =
      [person "@ @", person "@ @"] ∧
    pyLower (normalize_person_name "@ @") = "@" ∧
    ("@" : String) ≠ "" ∧
    validate_payload exSchemaShadow =
      .error (.valueError "relevant_developers[2] must be of type dict") ∧
    asList (jGetD exSchemaShadow "relevant_developers" .null) =
      [person "alice", person "alice", .num 5] ∧
    extract_identity (person "alice") = .ok ("", "alice") :=
  ⟨rfl, rfl, rfl, by decide, rfl, rfl, rfl⟩

set_option maxRecDepth 10000 in
/-- C4, code bug.  Idempotence fails on `rawAtName` (author named `"@"`):
the sanitizer succeeds and writes `outAtName`, whose author name has been
normalized to `""`; re-running the sanitizer on that very output fails
(every candidate is rejected by `require_string` on the now-empty name),
writes nothing, and exits 1 — not the byte-identical success the spec
requires. -/
theorem C4_code_bug :
    run_sanitizer rawAtName.data = .written outAtName.data ∧
    run_sanitizer outAtName.data =
      .failed (some (.valueError "commits[0].author.name must be a non-empty string")) ∧
    written_output (run_sanitizer outAtName.data) = none ∧
    exit_code (run_sanitizer outAtName.data) = 1 :=
  ⟨rfl, rfl, rfl, rfl⟩

/-- C5, code bug.  `validate_person` checks non-emptiness on the merely
whitespace-trimmed name, *before* the `@`-stripping normalization: the name
`"@"` is accepted and the record is returned with `name` normalized to the
empty string, where the claim (and §3 of the spec) requires rejection. -/
theorem C5_code_bug :
    validate_person (.obj [("name", .str "@")]) "commits[0].author" =
      .ok (.obj [("name", .str "")]) ∧
    normalize_person_name "@" = "" :=
  ⟨rfl, rfl⟩

/-- C6, counterexample.  A person whose `login` is the number `5` is
accepted by `validate_person` — the `login` value is coerced with `str()`
and trimmed by `normalize_identity_fields`, never type-checked — where the
claim requires a type error citing the field. -/
theorem C6_counterexample :
    validate_person (.obj [("name", .str "x"), ("login", .num 5)]) "p" =
      .ok (.obj [("name", .str "x"), ("login", .str "5")]) := rfl

/-- How `validate_person` rewrites a `login` value: `None` is left
untouched, anything else becomes its trimmed `str()` coercion. -/
def coercedLogin (v : JVal) : JVal :=
  match v with
  | .null => .null
  | w => .str (pyStrip (pyStrOf w))

/-- C6, amended.  For every value of the `login` field, `validate_person`
succeeds on an otherwise-valid record: a `None` login is left untouched and
any other value is replaced by its trimmed `str()` coercion
(`coercedLogin`); no type check is performed on `login`. -/
theorem C6_amended (v : JVal) :
    validate_person (.obj [("name", .str "x"), ("login", v)]) "p" =
      .ok (.obj [("name", .str "x"), ("login", coercedLogin v)]) := by
  have h1 : validate_person (.obj [("name", .str "x"), ("login", v)]) "p" =
      .ok (normalize_identity_fields (jSet (.obj [("name", .str "x"), ("login", v)]) "name"
        (.str (normalize_person_name "x")))) := by
    cases v <;> rfl
  have h2 : normalize_identity_fields (jSet (.obj [("name", .str "x"), ("login", v)]) "name"
      (.str (normalize_person_name "x"))) =
      .obj [("name", .str "x"), ("login", coercedLogin v)] := by
    cases v <;> rfl
  rw [h1, h2]

/-- C7, counterexample.  The claim says no two entries of the same person
list may share an identity, in particular duplicate approvers must be
rejected; but `exDupApprovers`, whose only commit has two approvers with
the same non-empty normalized name `"alice"`, validates successfully: the
duplicate scan runs only over `relevant_developers` lists. -/
theorem C7_counterexample :
    validate_payload exDupApprovers = .ok exDupApprovers ∧
    (asList (jGetD exDupApprovers "commits" .null)).map
      (fun c => asList (jGetD c "approvers" (.arr []))) =
      [[person "alice", person "alice"]] ∧
    extract_identity (person "alice") = .ok ("", "alice") :=
  ⟨rfl, rfl, rfl⟩

/-- C7, amended.  The within-list duplicate-identity check applies only to
`relevant_developers` lists: the payload with two identical approvers is
accepted unchanged, while the same duplicate pair placed under the commit's
`relevant_developers` is rejected with the duplicate-entry error. -/
theorem C7_amended :
    validate_payload exDupApprovers = .ok exDupApprovers ∧
    validate_payload exDupDevs = .error (.valueError (dupNameMsg "commits[0]" "alice")) :=
  ⟨rfl, rfl⟩

/-- C8, counterexample.  On the raw text `" \x7b\x7d "` the candidate list
contains the same string twice: the raw text and the brace-spanned
substring differ before trimming (so deduplication keeps both) but coincide
after trimming, contradicting the claim that the returned entries are
pairwise distinct. -/
theorem C8_counterexample :
    normalize_candidates " \x7b\x7d ".data = ["\x7b\x7d".data, "\x7b\x7d".data] ∧
    ¬ List.Nodup (normalize_candidates " \x7b\x7d ".data) :=
  ⟨rfl, by decide⟩

end Sanitize

namespace Sanitize

/-- C8, amended.  `normalize_candidates` returns the whitespace-trimmed
candidates in preference order (raw text, wrapper-tag-stripped text,
brace-spanned substring), but deduplication compares the *untrimmed*
candidates: a later candidate is dropped exactly when it equals an earlier
one before trimming, so two returned entries may still coincide after
trimming (first-seen order is preserved). -/
theorem C8_amended (raw : List Char) :
    normalize_candidates raw =
      pyStripL raw ::
        ((if stripParamTags (stripContentTags raw) = raw then []
          else [pyStripL (stripParamTags (stripContentTags raw))]) ++
         (match braceSlice raw with
          | none => []
          | some b =>
              if b = raw ∨ b = stripParamTags (stripContentTags raw) then []
              else [pyStripL b])) := by
  unfold normalize_candidates
  cases hb : braceSlice raw with
  | none =>
      by_cases h1 : stripParamTags (stripContentTags raw) = raw <;>
        simp [dedup_trim, h1]
  | some b =>
      by_cases h1 : stripParamTags (stripContentTags raw) = raw <;>
        by_cases h2 : b = raw <;>
          by_cases h3 : b = stripParamTags (stripContentTags raw) <;>
            simp [dedup_trim, h1, h2, h3]

end Sanitize

namespace Sanitize

/-- Person-record constructor used to quantify over all combinations of
`name`/`login`/`slack_id` fields. -/
def mkPerson (nm lg sid : Option String) : JVal :=
  .obj ((match nm with | some s => [("name", JVal.str s)] | none => [])
    ++ (match lg with | some s => [("login", JVal.str s)] | none => [])
    ++ (match sid with | some s => [("slack_id", JVal.str s)] | none => []))

/-- Modelled from the spec (§3 identity key, quoted by C2): the slack-id
channel — the whitespace-trimmed `slack_id`, usable when non-empty. -/
def specSlackKey (sid : Option String) : String := pyStrip (sid.getD "")

/-- Modelled from the spec (§3 identity key, quoted by C2): the name
channel — the normalized (whitespace-trimmed, leading-`@`-stripped,
lowercased) `name`, falling back to `login` when `name` is missing or
empty. -/
def specNameKey (nm lg : Option String) : String :=
  pyLower (normalize_person_name (if nm.getD "" ≠ "" then nm.getD "" else lg.getD ""))

/-- Modelled from the spec: two persons are "the same identity" iff their
non-empty slack_ids match, or their non-empty normalized names match. -/
def specSameIdentity (nm lg sid nm' lg' sid' : Option String) : Prop :=
  (specSlackKey sid ≠ "" ∧ specSlackKey sid = specSlackKey sid') ∨
  (specNameKey nm lg ≠ "" ∧ specNameKey nm lg = specNameKey nm' lg')

theorem pyLower_empty : pyLower "" = "" := rfl

theorem nameKey_ite (s : String) :
    (if normalize_person_name s = "" then "" else pyLower (normalize_person_name s)) =
      pyLower (normalize_person_name s) := by
  by_cases h : normalize_person_name s = "" <;> simp [h, pyLower_empty]

/-- `extract_identity` computes exactly the spec's identity key. -/
theorem extract_mk (nm lg sid : Option String) :
    extract_identity (mkPerson nm lg sid) = .ok (specSlackKey sid, specNameKey nm lg) := by
  cases nm <;> cases lg <;> cases sid <;>
    · simp only [mkPerson, extract_identity, jGetD, jGet, lookupKV, JVal.isObj, pyOr, truthy,
        asStrM, specSlackKey, specNameKey, Option.getD, List.nil_append, List.cons_append]
      first
      | rfl
      | (split_ifs <;> simp_all [pyLower_empty, nameKey_ite, bind, Except.bind])

/-- C2, confirmed.  The overlap check flags a `relevant_developers` entry
against an author exactly when the two records are "the same identity" in
the spec's sense: non-empty trimmed slack_ids equal, or non-empty
normalized names equal — each channel an independent sufficient condition.
In particular (second conjunct) a developer named `"@alice"` conflicts with
an author named `"alice"` even though their slack_ids are non-empty and
different. -/
theorem C2_identity_iff :
    (∀ nm lg sid nm' lg' sid' : Option String,
      check_no_overlap [mkPerson nm' lg' sid'] (mkPerson nm lg sid) [] "c" ≠ .ok () ↔
        specSameIdentity nm lg sid nm' lg' sid') ∧
    check_no_overlap [mkPerson (some "@alice") none (some "U1")]
        (mkPerson (some "alice") none (some "U2")) [] "c" =
      .error (.valueError
        "c.relevant_developers contains the commit author (alice), which is not allowed") := by
  constructor
  · intro nm lg sid nm' lg' sid'
    simp only [check_no_overlap, approver_sets, extract_mk, bind, Except.bind, overlap_scan]
    simp only [List.mem_nil_iff, and_false, Bool.and_eq_true, Bool.or_eq_true,
      decide_eq_true_eq, specSameIdentity]
    split_ifs with h1 h2
    · constructor
      · intro _
        rcases h1 with ⟨⟨a1, _⟩, a3⟩ | ⟨⟨a1, _⟩, a3⟩
        · exact Or.inl ⟨a1, a3⟩
        · exact Or.inr ⟨a1, a3⟩
      · intro _
        simp
    · cases h2 <;> contradiction
    · constructor
      · intro hc
        exact absurd rfl hc
      · intro hc
        exfalso
        apply h1
        rcases hc with ⟨a1, a2⟩ | ⟨a1, a2⟩
        · exact Or.inl ⟨⟨a1, a2 ▸ a1⟩, a2⟩
        · exact Or.inr ⟨⟨a1, a2 ▸ a1⟩, a2⟩
  · rfl

end Sanitize

namespace Sanitize

/-- The error a failing candidate records (dummy value on success). -/
def errOf (c : List Char) : PyErr :=
  match attempt c with
  | .error e => e
  | .ok _ => .jsonDecode

/-- The last non-empty entry of the candidate list. -/
def lastNonEmpty (l : List (List Char)) : Option (List Char) :=
  l.foldl (fun acc c => if c.isEmpty then acc else some c) none

theorem run_candidates_all_fail :
    ∀ (l : List (List Char)) (le : Option PyErr),
      (∀ c ∈ l, ¬ c.isEmpty → ∃ e, attempt c = .error e ∧ catchable e = true) →
      run_candidates l le =
        .failed (l.foldl (fun acc c => if c.isEmpty then acc else some (errOf c)) le)
  | [], le, _ => rfl
  | c :: rest, le, h => by
      by_cases hc : c.isEmpty
      · simp only [run_candidates, hc, if_true, List.foldl_cons]
        exact run_candidates_all_fail rest le (fun d hd => h d (List.mem_cons_of_mem c hd))
      · obtain ⟨e, he, hcat⟩ := h c (List.mem_cons_self c rest) hc
        simp only [run_candidates, hc, if_false, List.foldl_cons, he, hcat, if_true]
        have herr : errOf c = e := by simp [errOf, he]
        rw [herr]
        exact run_candidates_all_fail rest (some e) (fun d hd => h d (List.mem_cons_of_mem c hd))

theorem errOf_foldl (l : List (List Char)) :
    ∀ acc : Option (List Char),
      l.foldl (fun a c => if c.isEmpty then a else some (errOf c)) (acc.map errOf) =
        (l.foldl (fun a c => if c.isEmpty then a else some c) acc).map errOf := by
  induction l with
  | nil => intro acc; rfl
  | cons c rest ih =>
      intro acc
      by_cases hc : c.isEmpty
      · simp only [List.foldl_cons, hc, if_true]
        exact ih acc
      · simp only [List.foldl_cons, hc, if_false]
        have : some (errOf c) = (some c).map errOf := rfl
        rw [this]
        exact ih (some c)

theorem lastNonEmpty_spec (l : List (List Char)) :
    ∀ acc : Option (List Char),
      ((∀ c ∈ l, c.isEmpty) ∧
        l.foldl (fun a c => if c.isEmpty then a else some c) acc = acc) ∨
      (∃ c, l.foldl (fun a c => if c.isEmpty then a else some c) acc = some c ∧
        c ∈ l ∧ ¬ c.isEmpty) := by
  induction l with
  | nil => intro acc; exact Or.inl ⟨fun c hc => absurd hc (List.not_mem_nil c), rfl⟩
  | cons c rest ih =>
      intro acc
      by_cases hc : c.isEmpty
      · rcases ih acc with ⟨hall, heq⟩ | ⟨d, heq, hmem, hne⟩
        · refine Or.inl ⟨?_, ?_⟩
          · intro d hd
            rcases List.mem_cons.mp hd with h | h
            · rw [h]; exact hc
            · exact hall d h
          · simp only [List.foldl_cons, hc, if_true]; exact heq
        · exact Or.inr ⟨d, by simp only [List.foldl_cons, hc, if_true]; exact heq,
            List.mem_cons_of_mem c hmem, hne⟩
      · rcases ih (some c) with ⟨hall, heq⟩ | ⟨d, heq, hmem, hne⟩
        · exact Or.inr ⟨c, by simp only [List.foldl_cons, hc, if_false]; exact heq,
            List.mem_cons_self c rest, hc⟩
        · exact Or.inr ⟨d, by simp only [List.foldl_cons, hc, if_false]; exact heq,
            List.mem_cons_of_mem c hmem, hne⟩

/-- C9, confirmed.  When every non-empty candidate fails with a caught
error (parse, schema, or invariant), the driver writes nothing, exits 1,
and the surfaced error is exactly the error of the *last* attempted
non-empty candidate; earlier errors are discarded. -/
theorem C9_last_error (raw : List Char)
    (hne : ∃ c ∈ normalize_candidates raw, ¬ c.isEmpty)
    (hfail : ∀ c ∈ normalize_candidates raw, ¬ c.isEmpty →
      ∃ e, attempt c = .error e ∧ catchable e = true) :
    ∃ c e, lastNonEmpty (normalize_candidates raw) = some c ∧ attempt c = .error e ∧
      run_sanitizer raw = .failed (some e) ∧
      written_output (run_sanitizer raw) = none ∧ exit_code (run_sanitizer raw) = 1 := by
  have hrun := run_candidates_all_fail (normalize_candidates raw) none hfail
  have hfold := errOf_foldl (normalize_candidates raw) none
  rcases lastNonEmpty_spec (normalize_candidates raw) none with ⟨hall, _⟩ | ⟨c, heq, hmem, hcne⟩
  · obtain ⟨c, hmem, hcne⟩ := hne
    exact absurd (hall c hmem) hcne
  · refine ⟨c, errOf c, ?_, ?_, ?_, ?_, ?_⟩
    · exact heq
    · obtain ⟨e, he, _⟩ := hfail c hmem hcne
      simp [errOf, he]
    · rw [run_sanitizer, hrun]
      have : (none : Option PyErr) = Option.map errOf none := rfl
      rw [this, hfold, heq]
      rfl
    · rw [run_sanitizer, hrun]
      rfl
    · rw [run_sanitizer, hrun]
      rfl

/-- Witness for C9 at the concrete content `"x"`, whose single candidate
fails to parse. -/
theorem C9_last_error_witness :
    ∃ c e, lastNonEmpty (normalize_candidates "x".data) = some c ∧ attempt c = .error e ∧
      run_sanitizer "x".data = .failed (some e) ∧
      written_output (run_sanitizer "x".data) = none ∧
      exit_code (run_sanitizer "x".data) = 1 := by
  apply C9_last_error
  · refine ⟨"x".data, ?_, ?_⟩ <;> decide
  · intro c hc hcne
    have : c = "x".data := by
      have h := hc
      rw [show normalize_candidates "x".data = ["x".data] from rfl] at h
      simpa using h
    rw [this]
    exact ⟨.jsonDecode, rfl, rfl⟩

end Sanitize

namespace Sanitize

theorem exBind_ok {α β : Type} {x : Res α} {f : α → Res β} {b : β} :
    (x >>= f) = .ok b ↔ ∃ a, x = .ok a ∧ f a = .ok b := by
  cases x with
  | ok a => simp [Bind.bind, Except.bind]
  | error e => simp [Bind.bind, Except.bind]

theorem setKV_setKV (k : String) (a b : JVal) :
    ∀ kvs : List (String × JVal), setKV k b (setKV k a kvs) = setKV k b kvs := by
  intro kvs
  induction kvs with
  | nil => simp [setKV]
  | cons kv rest ih =>
      by_cases h : kv.1 = k
      · cases kv; simp_all [setKV]
      · cases kv; simp_all [setKV]

theorem jSet_jSet (v : JVal) (k : String) (a b : JVal) :
    jSet (jSet v k a) k b = jSet v k b := by
  cases v <;> simp [jSet, setKV_setKV]

theorem lookupKV_setKV_self (k : String) (nv : JVal) :
    ∀ kvs, lookupKV k (setKV k nv kvs) = some nv := by
  intro kvs
  induction kvs with
  | nil => simp [setKV, lookupKV]
  | cons kv rest ih =>
      by_cases h : kv.1 = k
      · cases kv; simp_all [setKV, lookupKV]
      · cases kv; simp_all [setKV, lookupKV]

theorem jGet_jSet_self {v : JVal} (h : v.isObj = true) (k : String) (nv : JVal) :
    jGet (jSet v k nv) k = some nv := by
  cases v <;> simp_all [JVal.isObj, jSet, jGet, lookupKV_setKV_self]

theorem lookupKV_setKV_other {k k' : String} (h : k' ≠ k) (nv : JVal) :
    ∀ kvs, lookupKV k' (setKV k nv kvs) = lookupKV k' kvs := by
  intro kvs
  induction kvs with
  | nil =>
      simp only [setKV, lookupKV]
      rw [if_neg (fun hh => h hh.symm)]
  | cons kv rest ih =>
      cases kv with
      | mk k1 v1 =>
          by_cases hk : k1 = k
          · subst hk
            simp only [setKV, if_pos rfl, lookupKV]
            rw [if_neg (fun hh => h hh.symm), if_neg (fun hh => h hh.symm)]
          · simp only [setKV, if_neg hk, lookupKV]
            by_cases hk' : k1 = k'
            · simp [hk']
            · simp [hk', ih]

theorem jGet_jSet_other {k k' : String} (h : k' ≠ k) (v nv : JVal) :
    jGet (jSet v k nv) k' = jGet v k' := by
  cases v <;> simp [jSet, jGet, lookupKV_setKV_other h]

theorem jSet_isObj {v : JVal} (h : v.isObj = true) (k : String) (nv : JVal) :
    (jSet v k nv).isObj = true := by
  cases v <;> simp_all [JVal.isObj, jSet]

theorem dropWhile_dropWhile (p : Char → Bool) :
    ∀ l : List Char, (l.dropWhile p).dropWhile p = l.dropWhile p := by
  intro l
  induction l with
  | nil => rfl
  | cons c rest ih =>
      by_cases h : p c <;> simp [List.dropWhile_cons, h, ih]

theorem dropTail_dropTail (p : Char → Bool) (l : List Char) :
    dropTail p (dropTail p l) = dropTail p l := by
  unfold dropTail
  rw [List.reverse_reverse, dropWhile_dropWhile]

theorem dropTail_cons (p : Char → Bool) (c : Char) (rest : List Char) :
    dropTail p (c :: rest) =
      if (dropTail p rest).isEmpty && p c then [] else c :: dropTail p rest := by
  unfold dropTail
  rw [show (c :: rest).reverse = rest.reverse ++ [c] from by simp, List.dropWhile_append]
  by_cases he : rest.reverse.dropWhile p = []
  · simp only [he, List.isEmpty_nil, if_true, List.reverse_nil]
    by_cases hc : p c <;> simp [List.dropWhile_cons, hc]
  · have h1 : (rest.reverse.dropWhile p).isEmpty = false := by
      simpa [List.isEmpty_iff] using he
    have h2 : ((rest.reverse.dropWhile p).reverse).isEmpty = false := by
      simpa [List.isEmpty_iff] using he
    simp [h1, h2]

theorem dropWhile_dropTail_comm (p : Char → Bool) :
    ∀ l : List Char, (dropTail p l).dropWhile p = dropTail p (l.dropWhile p) := by
  intro l
  induction l with
  | nil => rfl
  | cons c rest ih =>
      rw [dropTail_cons, List.dropWhile_cons]
      by_cases hc : p c
      · by_cases he : (dropTail p rest).isEmpty
        · rw [List.isEmpty_iff] at he
          simp only [he, List.isEmpty_nil, hc, Bool.and_self, if_true, List.dropWhile_nil]
          rw [← ih, he, List.dropWhile_nil]
        · have he' : (dropTail p rest).isEmpty = false := by
            simpa using he
          simp only [he', hc, Bool.false_and, Bool.false_eq_true, if_false, if_true]
          rw [List.dropWhile_cons]
          simp only [hc, if_true]
          exact ih
      · simp only [hc, Bool.and_false, Bool.false_eq_true, if_false]
        rw [List.dropWhile_cons]
        simp only [hc, Bool.false_eq_true, if_false]
        rw [dropTail_cons]
        simp [hc]

theorem pyStripL_idem (l : List Char) : pyStripL (pyStripL l) = pyStripL l := by
  unfold pyStripL
  rw [dropWhile_dropTail_comm, dropWhile_dropWhile, dropTail_dropTail]

theorem pyStrip_idem (s : String) : pyStrip (pyStrip s) = pyStrip s := by
  unfold pyStrip
  exact congrArg String.mk (pyStripL_idem s.data)

theorem npn_pyStrip (s : String) :
    normalize_person_name (pyStrip s) = normalize_person_name s := by
  unfold normalize_person_name normalize_whitespace
  rw [pyStrip_idem]

theorem pyStrip_nw (s : String) :
    pyStrip (normalize_whitespace s) = normalize_whitespace s := pyStrip_idem s

theorem require_type_ok {v : JVal} {t : PyType} {path : String} {u : Unit}
    (h : require_type v t path = .ok u) : isType v t = true := by
  unfold require_type at h
  split at h
  · assumption
  · cases h

theorem require_string_ok {v : JVal} {path : String} {ae : Bool} {t : String}
    (h : require_string v path ae = .ok t) :
    ∃ s, v = .str s ∧ t = pyStrip s ∧ (ae = false → pyStrip s ≠ "") := by
  unfold require_string at h
  rw [exBind_ok] at h
  obtain ⟨u, hrt, h⟩ := h
  have hty := require_type_ok hrt
  cases v <;> simp [isType] at hty
  rename_i s
  simp only at h
  split at h
  · cases h
  · rename_i hcond
    cases h
    refine ⟨s, rfl, rfl, ?_⟩
    intro hae
    subst hae
    simpa using hcond

theorem normField_isObj {v : JVal} (h : v.isObj = true) (k : String) (f : String → String) :
    (normField k f v).isObj = true := by
  unfold normField
  split
  · exact h
  · exact h
  · exact jSet_isObj h k _

/-- The pure field-rewriting that `validate_person` performs on success: the
`name` is normalized twice (once by the explicit assignment, once more by
`normalize_identity_fields`), and non-`None` `login`/`slack_id` values are
replaced by their trimmed `str()` coercions.  No other field changes. -/
def normPersonPure (p : JVal) : JVal :=
  normField "slack_id" normalize_whitespace
    (normField "login" normalize_whitespace
      (match jGet p "name" with
       | some (.str s) => jSet p "name" (.str (normalize_person_name (normalize_person_name s)))
       | _ => p))

theorem validate_person_ok : ∀ {p w : JVal} {path : String},
    validate_person p path = .ok w → w = normPersonPure p := by
  intro p w path h
  unfold validate_person at h
  rw [exBind_ok] at h
  obtain ⟨u, hrt, h⟩ := h
  have hobj0 := require_type_ok hrt
  have hobj : p.isObj = true := by
    cases p <;> simp_all [isType, JVal.isObj]
  split at h
  · cases h
  · rename_i hname
    rw [exBind_ok] at h
    obtain ⟨t, hrs, h⟩ := h
    obtain ⟨s, hval, hts, _⟩ := require_string_ok hrs
    have hget : jGet p "name" = some (.str s) := by
      have hk : (jGet p "name").isSome = true := by
        by_cases hkk : hasKey p "name" = true
        · exact hkk
        · simp [hkk] at hname
      cases hgn : jGet p "name" with
      | none => rw [hgn] at hk; cases hk
      | some nv =>
          have hnv : jGetD p "name" JVal.null = nv := by
            unfold jGetD
            rw [hgn]
            rfl
          rw [hnv] at hval
          rw [hval]
    subst hts
    set q1 := jSet p "name" (.str (normalize_person_name (normalize_person_name s))) with hq1
    have hp1 : jSet p "name" (.str (normalize_person_name (pyStrip s))) =
        jSet p "name" (.str (normalize_person_name s)) := by
      rw [npn_pyStrip]
    rw [hp1] at h
    have hinner : normField "name" normalize_person_name
        (jSet p "name" (.str (normalize_person_name s))) = q1 := by
      unfold normField
      rw [jGet_jSet_self hobj]
      show jSet (jSet p "name" (.str (normalize_person_name s))) "name"
          (.str (normalize_person_name (pyStrOf (.str (normalize_person_name s))))) = q1
      rw [jSet_jSet, hq1]
      rfl
    have hstep : normalize_identity_fields (jSet p "name" (.str (normalize_person_name s))) =
        normField "slack_id" normalize_whitespace
          (normField "login" normalize_whitespace q1) := by
      unfold normalize_identity_fields
      rw [hinner]
    rw [hstep] at h
    set r := normField "login" normalize_whitespace q1 with hr
    have hq1obj : q1.isObj = true := jSet_isObj hobj _ _
    have hrobj : r.isObj = true := normField_isObj hq1obj _ _
    have hnpp : normPersonPure p = normField "slack_id" normalize_whitespace r := by
      unfold normPersonPure
      rw [hget, hr, hq1]
    cases hsl : jGet r "slack_id" with
    | none =>
        have hp2 : normField "slack_id" normalize_whitespace r = r := by
          unfold normField; rw [hsl]
        rw [hp2] at h
        unfold validate_person_slack at h
        rw [hsl] at h
        injection h with h2
        rw [hnpp, hp2]
        exact h2.symm
    | some v =>
        cases v with
        | null =>
            have hp2 : normField "slack_id" normalize_whitespace r = r := by
              unfold normField; rw [hsl]
            rw [hp2] at h
            unfold validate_person_slack at h
            rw [hsl] at h
            injection h with h2
            rw [hnpp, hp2]
            exact h2.symm
        | str sv =>
            have hp2 : normField "slack_id" normalize_whitespace r =
                jSet r "slack_id" (.str (normalize_whitespace (pyStrOf (.str sv)))) := by
              unfold normField; rw [hsl]
            rw [hp2] at h
            unfold validate_person_slack at h
            rw [jGet_jSet_self hrobj] at h
            rw [exBind_ok] at h
            obtain ⟨t2, hrs2, h⟩ := h
            obtain ⟨s2, hv2, ht2, _⟩ := require_string_ok hrs2
            cases hv2
            injection h with h2
            rw [hnpp, hp2, ← h2, ht2, jSet_jSet, pyStrip_nw]
        | bool b =>
            have hp2 : normField "slack_id" normalize_whitespace r =
                jSet r "slack_id" (.str (normalize_whitespace (pyStrOf (.bool b)))) := by
              unfold normField; rw [hsl]
            rw [hp2] at h
            unfold validate_person_slack at h
            rw [jGet_jSet_self hrobj] at h
            rw [exBind_ok] at h
            obtain ⟨t2, hrs2, h⟩ := h
            obtain ⟨s2, hv2, ht2, _⟩ := require_string_ok hrs2
            cases hv2
            injection h with h2
            rw [hnpp, hp2, ← h2, ht2, jSet_jSet, pyStrip_nw]
        | num n =>
            have hp2 : normField "slack_id" normalize_whitespace r =
                jSet r "slack_id" (.str (normalize_whitespace (pyStrOf (.num n)))) := by
              unfold normField; rw [hsl]
            rw [hp2] at h
            unfold validate_person_slack at h
            rw [jGet_jSet_self hrobj] at h
            rw [exBind_ok] at h
            obtain ⟨t2, hrs2, h⟩ := h
            obtain ⟨s2, hv2, ht2, _⟩ := require_string_ok hrs2
            cases hv2
            injection h with h2
            rw [hnpp, hp2, ← h2, ht2, jSet_jSet, pyStrip_nw]
        | arr xs =>
            have hp2 : normField "slack_id" normalize_whitespace r =
                jSet r "slack_id" (.str (normalize_whitespace (pyStrOf (.arr xs)))) := by
              unfold normField; rw [hsl]
            rw [hp2] at h
            unfold validate_person_slack at h
            rw [jGet_jSet_self hrobj] at h
            rw [exBind_ok] at h
            obtain ⟨t2, hrs2, h⟩ := h
            obtain ⟨s2, hv2, ht2, _⟩ := require_string_ok hrs2
            cases hv2
            injection h with h2
            rw [hnpp, hp2, ← h2, ht2, jSet_jSet, pyStrip_nw]
        | obj kvs =>
            have hp2 : normField "slack_id" normalize_whitespace r =
                jSet r "slack_id" (.str (normalize_whitespace (pyStrOf (.obj kvs)))) := by
              unfold normField; rw [hsl]
            rw [hp2] at h
            unfold validate_person_slack at h
            rw [jGet_jSet_self hrobj] at h
            rw [exBind_ok] at h
            obtain ⟨t2, hrs2, h⟩ := h
            obtain ⟨s2, hv2, ht2, _⟩ := require_string_ok hrs2
            cases hv2
            injection h with h2
            rw [hnpp, hp2, ← h2, ht2, jSet_jSet, pyStrip_nw]

end Sanitize

namespace Sanitize

theorem validate_person_list_from_ok :
    ∀ {l : List JVal} {out : List JVal} {path : String} {i : Nat},
      validate_person_list_from path i l = .ok out → out = l.map normPersonPure := by
  intro l
  induction l with
  | nil =>
      intro out path i h
      unfold validate_person_list_from at h
      injection h with h
      rw [← h]
      rfl
  | cons e rest ih =>
      intro out path i h
      unfold validate_person_list_from at h
      rw [exBind_ok] at h
      obtain ⟨e', hvp, h⟩ := h
      rw [exBind_ok] at h
      obtain ⟨rest', hrest, h⟩ := h
      injection h with h
      rw [← h, List.map_cons, validate_person_ok hvp, ih hrest]

theorem validate_person_list_ok {v : JVal} {path : String} {out : List JVal}
    (h : validate_person_list v path = .ok out) :
    ∃ xs, v = .arr xs ∧ out = xs.map normPersonPure := by
  unfold validate_person_list at h
  rw [exBind_ok] at h
  obtain ⟨u, hrt, h⟩ := h
  have hty := require_type_ok hrt
  cases v <;> simp [isType] at hty
  rename_i xs
  exact ⟨xs, rfl, validate_person_list_from_ok h⟩


def normCommitAuthor (c : JVal) : JVal :=
  match jGet c "author" with
  | some a => jSet c "author" (normPersonPure a)
  | none => c

def normCommitApprovers (c : JVal) : JVal :=
  match jGet c "approvers" with
  | some (.arr xs) => jSet c "approvers" (.arr (xs.map normPersonPure))
  | _ => c

def normCommitDevs (c : JVal) : JVal :=
  match jGet c "relevant_developers" with
  | some (.arr xs) => jSet c "relevant_developers" (.arr (xs.map normPersonPure))
  | _ => c

/-- The pure rewriting `validate_commit` performs on success. -/
def normCommitPure (c : JVal) : JVal :=
  normCommitDevs (normCommitApprovers (normCommitAuthor c))

theorem isType_dict_isObj {v : JVal} (h : isType v .dict = true) : v.isObj = true := by
  cases v <;> simp_all [isType, JVal.isObj]

theorem hasKey_true_get {v : JVal} {k : String} (h : hasKey v k = true) :
    ∃ x, jGet v k = some x := by
  unfold hasKey at h
  cases hg : jGet v k with
  | none => rw [hg] at h; cases h
  | some x => exact ⟨x, rfl⟩

theorem hasKey_false_get {v : JVal} {k : String} (h : ¬ hasKey v k = true) :
    jGet v k = none := by
  unfold hasKey at h
  cases hg : jGet v k with
  | none => rfl
  | some x => rw [hg] at h; simp at h

theorem jGetD_of_get {v : JVal} {k : String} {x d : JVal} (h : jGet v k = some x) :
    jGetD v k d = x := by
  unfold jGetD
  rw [h]
  rfl

theorem validate_commit_approvers_ok {c1 c2 : JVal} {path : String}
    (hc1 : c1.isObj = true)
    (h : validate_commit_approvers c1 path = .ok c2) :
    c2 = normCommitApprovers c1 ∧ c2.isObj = true := by
  unfold validate_commit_approvers at h
  split at h
  · rename_i happ
    rw [exBind_ok] at h
    obtain ⟨aps, hvl, h⟩ := h
    obtain ⟨xs, hxs, hmap⟩ := validate_person_list_ok hvl
    injection h with h
    have hget : jGet c1 "approvers" = some (.arr xs) := by
      obtain ⟨x, hx⟩ := hasKey_true_get happ
      rw [jGetD_of_get hx] at hxs
      rw [hx, hxs]
    constructor
    · rw [← h, hmap]
      unfold normCommitApprovers
      rw [hget]
    · rw [← h]
      exact jSet_isObj hc1 _ _
  · rename_i happ
    injection h with h
    have hget : jGet c1 "approvers" = none := hasKey_false_get happ
    constructor
    · rw [← h]
      unfold normCommitApprovers
      rw [hget]
    · rw [← h]; exact hc1

theorem validate_commit_rdevs_ok {c2 c3 : JVal} {path : String}
    (hc2 : c2.isObj = true)
    (h : validate_commit_rdevs c2 path = .ok c3) :
    c3 = normCommitDevs c2 ∧ c3.isObj = true ∧
    (∀ devs, jGet c3 "relevant_developers" = some (.arr devs) →
      scan_dups (dupIdMsg path) (dupNameMsg path) [] [] devs = .ok () ∧
      check_no_overlap devs (jGetD c3 "author" .null)
        (asList (jGetD c3 "approvers" (.arr []))) path = .ok ()) := by
  unfold validate_commit_rdevs at h
  split at h
  · rename_i hdk
    rw [exBind_ok] at h
    obtain ⟨devs, hvl, h⟩ := h
    obtain ⟨xs, hxs, hmap⟩ := validate_person_list_ok hvl
    have hget : jGet c2 "relevant_developers" = some (.arr xs) := by
      obtain ⟨x, hx⟩ := hasKey_true_get hdk
      rw [jGetD_of_get hx] at hxs
      rw [hx, hxs]
    unfold validate_commit_devs at h
    rw [exBind_ok] at h
    obtain ⟨u3, hscan, h⟩ := h
    rw [exBind_ok] at h
    obtain ⟨u4, hover, h⟩ := h
    injection h with h
    have hc3eq : c3 = jSet c2 "relevant_developers" (.arr devs) := h.symm
    refine ⟨?_, ?_, ?_⟩
    · rw [hc3eq, hmap]
      unfold normCommitDevs
      rw [hget]
    · rw [hc3eq]
      exact jSet_isObj hc2 _ _
    · intro devs2 hdevs2
      have hget3 : jGet c3 "relevant_developers" = some (.arr devs) := by
        rw [hc3eq]; exact jGet_jSet_self hc2 _ _
      rw [hget3] at hdevs2
      injection hdevs2 with hdevs2
      injection hdevs2 with hdevs2
      subst hdevs2
      rw [hc3eq]
      exact ⟨by cases u3; exact hscan, by cases u4; exact hover⟩
  · rename_i hdk
    injection h with h
    have hget : jGet c2 "relevant_developers" = none := hasKey_false_get hdk
    refine ⟨?_, by rw [← h]; exact hc2, ?_⟩
    · rw [← h]
      unfold normCommitDevs
      rw [hget]
    · intro devs2 hdevs2
      rw [← h, hget] at hdevs2
      cases hdevs2

theorem validate_commit_files_ok {c3 c' : JVal} {path : String}
    (h : validate_commit_files c3 path = .ok c') : c' = c3 := by
  unfold validate_commit_files at h
  split at h
  · rw [exBind_ok] at h
    obtain ⟨u5, _, h⟩ := h
    rw [exBind_ok] at h
    obtain ⟨u6, _, h⟩ := h
    injection h with h
    exact h.symm
  · injection h with h
    exact h.symm

theorem validate_commit_at_ok {c : JVal} {path : String} {c' : JVal}
    (h : validate_commit_at c path = .ok c') :
    c' = normCommitPure c ∧ c'.isObj = true ∧
    (∀ devs, jGet c' "relevant_developers" = some (.arr devs) →
      scan_dups (dupIdMsg path) (dupNameMsg path) [] [] devs = .ok () ∧
      check_no_overlap devs (jGetD c' "author" .null)
        (asList (jGetD c' "approvers" (.arr []))) path = .ok ()) := by
  unfold validate_commit_at at h
  simp only [] at h
  rw [exBind_ok] at h
  obtain ⟨u1, hrt, h⟩ := h
  have hobj : c.isObj = true := isType_dict_isObj (require_type_ok hrt)
  split at h
  · cases h
  · rw [exBind_ok] at h
    obtain ⟨t1, _, h⟩ := h
    rw [exBind_ok] at h
    obtain ⟨u2, _, h⟩ := h
    split at h
    · cases h
    · rename_i hak
      rw [exBind_ok] at h
      obtain ⟨author', hvp, h⟩ := h
      obtain ⟨av, hav⟩ : ∃ av, jGet c "author" = some av := by
        by_cases hkk : hasKey c "author" = true
        · exact hasKey_true_get hkk
        · simp [hkk] at hak
      rw [jGetD_of_get hav] at hvp
      have hauth : author' = normPersonPure av := validate_person_ok hvp
      subst hauth
      have hc1n : normCommitAuthor c = jSet c "author" (normPersonPure av) := by
        unfold normCommitAuthor
        rw [hav]
      have hc1obj : (jSet c "author" (normPersonPure av)).isObj = true := jSet_isObj hobj _ _
      rw [exBind_ok] at h
      obtain ⟨c2, hc2, h⟩ := h
      obtain ⟨hc2n, hc2obj⟩ := validate_commit_approvers_ok hc1obj hc2
      rw [exBind_ok] at h
      obtain ⟨c3, hc3, h⟩ := h
      obtain ⟨hc3n, hc3obj, hc3checks⟩ := validate_commit_rdevs_ok hc2obj hc3
      have hfin : c' = c3 := validate_commit_files_ok h
      subst hfin
      refine ⟨?_, hc3obj, hc3checks⟩
      rw [hc3n, hc2n]
      unfold normCommitPure
      rw [hc1n]

end Sanitize

namespace Sanitize

def normPayloadCommits (p : JVal) : JVal :=
  match jGet p "commits" with
  | some (.arr cs) => jSet p "commits" (.arr (cs.map normCommitPure))
  | _ => p

def normPayloadDevs (p : JVal) : JVal :=
  match jGet p "relevant_developers" with
  | some (.arr xs) => jSet p "relevant_developers" (.arr (xs.map normPersonPure))
  | _ => p

/-- The pure rewriting `validate_payload` performs on success: normalize
the person records inside every commit and inside the top-level
`relevant_developers`; every other field keeps its parsed value. -/
def normPayloadPure (p : JVal) : JVal := normPayloadDevs (normPayloadCommits p)

theorem validate_commit_ok2 {c : JVal} {i : Nat} {c' : JVal}
    (h : validate_commit c i = .ok c') :
    c' = normCommitPure c ∧ c'.isObj = true ∧
    (∀ devs, jGet c' "relevant_developers" = some (.arr devs) →
      scan_dups (dupIdMsg ("commits[" ++ toString i ++ "]"))
        (dupNameMsg ("commits[" ++ toString i ++ "]")) [] [] devs = .ok () ∧
      check_no_overlap devs (jGetD c' "author" .null)
        (asList (jGetD c' "approvers" (.arr []))) ("commits[" ++ toString i ++ "]") = .ok ()) := by
  unfold validate_commit at h
  exact validate_commit_at_ok h

theorem validate_commits_from_map :
    ∀ {l out : List JVal} {i : Nat},
      validate_commits_from i l = .ok out → out = l.map normCommitPure := by
  intro l
  induction l with
  | nil =>
      intro out i h
      unfold validate_commits_from at h
      injection h with h
      rw [← h]
      rfl
  | cons c rest ih =>
      intro out i h
      unfold validate_commits_from at h
      rw [exBind_ok] at h
      obtain ⟨c', hvc, h⟩ := h
      rw [exBind_ok] at h
      obtain ⟨rest', hrest, h⟩ := h
      injection h with h
      rw [← h, List.map_cons, (validate_commit_ok2 hvc).1, ih hrest]

theorem validate_commits_from_nth :
    ∀ {l out : List JVal} {i : Nat},
      validate_commits_from i l = .ok out →
      ∀ j (hj : j < l.length), ∃ hj' : j < out.length,
        validate_commit (l.get ⟨j, hj⟩) (i + j) = .ok (out.get ⟨j, hj'⟩) := by
  intro l
  induction l with
  | nil =>
      intro out i h j hj
      cases hj
  | cons c rest ih =>
      intro out i h j hj
      unfold validate_commits_from at h
      rw [exBind_ok] at h
      obtain ⟨c', hvc, h⟩ := h
      rw [exBind_ok] at h
      obtain ⟨rest', hrest, h⟩ := h
      injection h with h
      subst h
      cases j with
      | zero =>
          refine ⟨by simp, ?_⟩
          simpa using hvc
      | succ j' =>
          have hj2 : j' < rest.length := Nat.lt_of_succ_lt_succ hj
          obtain ⟨hj', hv⟩ := ih hrest j' hj2
          refine ⟨Nat.succ_lt_succ hj', ?_⟩
          have harith : i + (j' + 1) = i + 1 + j' := by omega
          rw [harith]
          simpa using hv

theorem validate_payload_rdevs_ok {p1 : JVal} {commitsV : List JVal}
    {R : List (String × String)} {w : JVal}
    (hp1 : p1.isObj = true)
    (h : validate_payload_rdevs p1 commitsV R = .ok w) :
    w = normPayloadDevs p1 ∧ w.isObj = true ∧
    (jGet w "relevant_developers" = none ∨
     ∃ devs, jGet w "relevant_developers" = some (.arr devs) ∧
       scan_dups topDupIdMsg topDupNameMsg [] [] devs = .ok () ∧
       (commitsV ≠ [] → top_overlap_scan R devs = .ok ())) := by
  unfold validate_payload_rdevs at h
  split at h
  · rename_i hdk
    rw [exBind_ok] at h
    obtain ⟨devs, hvl, h⟩ := h
    obtain ⟨xs, hxs, hmap⟩ := validate_person_list_ok hvl
    have hget : jGet p1 "relevant_developers" = some (.arr xs) := by
      obtain ⟨x, hx⟩ := hasKey_true_get hdk
      rw [jGetD_of_get hx] at hxs
      rw [hx, hxs]
    rw [exBind_ok] at h
    obtain ⟨u3, hscan, h⟩ := h
    have hweq : w = jSet p1 "relevant_developers" (.arr devs) ∧
        (commitsV ≠ [] → top_overlap_scan R devs = .ok ()) := by
      split at h
      · rename_i hne
        rw [exBind_ok] at h
        obtain ⟨u4, hover, h⟩ := h
        injection h with h
        exact ⟨h.symm, fun _ => by cases u4; exact hover⟩
      · rename_i hne
        injection h with h
        refine ⟨h.symm, ?_⟩
        intro hned
        exfalso
        apply hned
        have : commitsV.isEmpty = true := by
          by_cases hie : commitsV.isEmpty = true
          · exact hie
          · simp [hie] at hne
        exact List.isEmpty_iff.mp this
    obtain ⟨hweq, hguard⟩ := hweq
    refine ⟨?_, ?_, Or.inr ⟨devs, ?_, by cases u3; exact hscan, hguard⟩⟩
    · rw [hweq, hmap]
      unfold normPayloadDevs
      rw [hget]
    · rw [hweq]
      exact jSet_isObj hp1 _ _
    · rw [hweq]
      exact jGet_jSet_self hp1 _ _
  · rename_i hdk
    injection h with h
    have hget : jGet p1 "relevant_developers" = none := hasKey_false_get hdk
    refine ⟨?_, by rw [← h]; exact hp1, Or.inl (by rw [← h]; exact hget)⟩
    rw [← h]
    unfold normPayloadDevs
    rw [hget]

theorem check_notes_ok {p2 w : JVal} (h : check_notes p2 = .ok w) : w = p2 := by
  unfold check_notes at h
  split at h
  · injection h with h; exact h.symm
  · injection h with h; exact h.symm
  · rw [exBind_ok] at h
    obtain ⟨t, _, h⟩ := h
    injection h with h
    exact h.symm

theorem normPayloadDevs_get_other {q : JVal} {k : String}
    (hk : k ≠ "relevant_developers") :
    jGet (normPayloadDevs q) k = jGet q k := by
  unfold normPayloadDevs
  split
  · rename_i xs hxs
    exact jGet_jSet_other hk _ _
  · rfl

theorem validate_payload_ok_parts {p w : JVal} (h : validate_payload p = .ok w) :
    w = normPayloadPure p ∧
    ∃ commits commitsV R,
      jGet p "commits" = some (.arr commits) ∧
      build_restricted commits = .ok R ∧
      validate_commits_from 0 commits = .ok commitsV ∧
      jGet w "commits" = some (.arr commitsV) ∧
      (jGet w "relevant_developers" = none ∨
       ∃ devs, jGet w "relevant_developers" = some (.arr devs) ∧
         scan_dups topDupIdMsg topDupNameMsg [] [] devs = .ok () ∧
         (commitsV ≠ [] → top_overlap_scan R devs = .ok ())) := by
  unfold validate_payload at h
  rw [exBind_ok] at h
  obtain ⟨u1, hrt, h⟩ := h
  have hobj : p.isObj = true := isType_dict_isObj (require_type_ok hrt)
  rw [exBind_ok] at h
  obtain ⟨u2, _, h⟩ := h
  rw [exBind_ok] at h
  obtain ⟨u3, _, h⟩ := h
  rw [exBind_ok] at h
  obtain ⟨u4, _, h⟩ := h
  rw [exBind_ok] at h
  obtain ⟨u5, _, h⟩ := h
  rw [exBind_ok] at h
  obtain ⟨u6, _, h⟩ := h
  rw [exBind_ok] at h
  obtain ⟨u7, _, h⟩ := h
  split at h
  · cases h
  · rename_i hck
    rw [exBind_ok] at h
    obtain ⟨u8, hrt2, h⟩ := h
    have hcarr : ∃ commits, jGet p "commits" = some (.arr commits) := by
      obtain ⟨x, hx⟩ : ∃ x, jGet p "commits" = some x := by
        by_cases hkk : hasKey p "commits" = true
        · exact hasKey_true_get hkk
        · simp [hkk] at hck
      have hty := require_type_ok hrt2
      rw [jGetD_of_get hx] at hty
      cases x <;> simp [isType] at hty
      rename_i cs
      exact ⟨cs, hx⟩
    obtain ⟨commits, hcommits⟩ := hcarr
    rw [exBind_ok] at h
    obtain ⟨R, hR, h⟩ := h
    rw [exBind_ok] at h
    obtain ⟨commitsV, hcv, h⟩ := h
    rw [exBind_ok] at h
    obtain ⟨p2, hrd, h⟩ := h
    have hasl : asList (jGetD p "commits" .null) = commits := by
      rw [jGetD_of_get hcommits]
      rfl
    rw [hasl] at hR hcv
    have hp1obj : (jSet p "commits" (.arr commitsV)).isObj = true := jSet_isObj hobj _ _
    obtain ⟨hp2n, hp2obj, hp2devs⟩ := validate_payload_rdevs_ok hp1obj hrd
    rw [exBind_ok] at h
    obtain ⟨u9, _, h⟩ := h
    have hwp2 : w = p2 := check_notes_ok h
    subst hwp2
    have hp1c : jGet (jSet p "commits" (.arr commitsV)) "commits" = some (.arr commitsV) :=
      jGet_jSet_self hobj _ _
    refine ⟨?_, commits, commitsV, R, hcommits, hR, hcv, ?_, hp2devs⟩
    · rw [hp2n]
      unfold normPayloadPure
      have hnc : normPayloadCommits p = jSet p "commits" (.arr commitsV) := by
        unfold normPayloadCommits
        rw [hcommits, validate_commits_from_map hcv]
      rw [hnc]
    · rw [hp2n, normPayloadDevs_get_other (by decide), hp1c]

end Sanitize

namespace Sanitize

/-- The identity key of a record, as a total function (dummy on records
where `extract_identity` raises). -/
def kId (d : JVal) : String :=
  match extract_identity d with
  | .ok k => k.1
  | .error _ => ""

def kName (d : JVal) : String :=
  match extract_identity d with
  | .ok k => k.2
  | .error _ => ""

/-- The seen-id set after scanning `L` starting from `ids`. -/
def seenIdsAfter (ids : List String) : List JVal → List String
  | [] => ids
  | d :: rest => seenIdsAfter (if kId d ≠ "" then kId d :: ids else ids) rest

def seenNamesAfter (names : List String) : List JVal → List String
  | [] => names
  | d :: rest => seenNamesAfter (if kName d ≠ "" then kName d :: names else names) rest

theorem scan_dups_ok_not_in {f g : String → String} :
    ∀ {L : List JVal} {ids names : List String},
      scan_dups f g ids names L = .ok () →
      ∀ d ∈ L, ∃ k, extract_identity d = .ok k ∧
        (k.1 ≠ "" → k.1 ∉ ids) ∧ (k.2 ≠ "" → k.2 ∉ names) := by
  intro L
  induction L with
  | nil =>
      intro ids names _ d hd
      cases hd
  | cons d0 rest ih =>
      intro ids names h d hd
      unfold scan_dups at h
      cases hex : extract_identity d0 with
      | error e => rw [hex] at h; cases h
      | ok k0 =>
          rw [hex] at h
          simp only [bind, Except.bind] at h
          split at h
          · cases h
          · split at h
            · cases h
            · rename_i hcond1 hcond2
              rcases List.mem_cons.mp hd with hd0 | hdr
              · subst hd0
                refine ⟨k0, hex, ?_, ?_⟩
                · intro hne hmem
                  exact hcond1 (by simp [hne, hmem])
                · intro hne hmem
                  exact hcond2 (by simp [hne, hmem])
              · obtain ⟨k, hk, h1, h2⟩ := ih h d hdr
                refine ⟨k, hk, ?_, ?_⟩
                · intro hne hmem
                  apply h1 hne
                  by_cases hk0 : k0.1 ≠ "" <;> simp [hk0, hmem]
                · intro hne hmem
                  apply h2 hne
                  by_cases hk0 : k0.2 ≠ "" <;> simp [hk0, hmem]

end Sanitize

namespace Sanitize

/-- Two records share no identity channel: used pairwise over a list. -/
def noShareRel (a b : JVal) : Prop :=
  ∀ ka kb, extract_identity a = .ok ka → extract_identity b = .ok kb →
    ¬ (kb.1 ≠ "" ∧ ka.1 = kb.1) ∧ ¬ (kb.2 ≠ "" ∧ ka.2 = kb.2)

theorem scan_dups_ok_pairwise {f g : String → String} :
    ∀ {L : List JVal} {ids names : List String},
      scan_dups f g ids names L = .ok () → L.Pairwise noShareRel := by
  intro L
  induction L with
  | nil => intro ids names _; exact List.Pairwise.nil
  | cons d0 rest ih =>
      intro ids names h
      unfold scan_dups at h
      cases hex : extract_identity d0 with
      | error e => rw [hex] at h; cases h
      | ok k0 =>
          rw [hex] at h
          simp only [bind, Except.bind] at h
          split at h
          · cases h
          · split at h
            · cases h
            · refine List.Pairwise.cons ?_ (ih h)
              intro b hb ka kb hka hkb
              rw [hex] at hka
              injection hka with hka
              subst hka
              obtain ⟨k, hk, hn1, hn2⟩ := scan_dups_ok_not_in h b hb
              rw [hk] at hkb
              injection hkb with hkb
              subst hkb
              constructor
              · rintro ⟨hne, heq⟩
                have hk0ne : k0.1 ≠ "" := heq ▸ hne
                apply hn1 hne
                simp [hk0ne, ← heq]
              · rintro ⟨hne, heq⟩
                have hk0ne : k0.2 ≠ "" := heq ▸ hne
                apply hn2 hne
                simp [hk0ne, ← heq]

theorem kId_eq {d : JVal} {k : String × String} (h : extract_identity d = .ok k) :
    kId d = k.1 := by
  unfold kId
  rw [h]

theorem kName_eq {d : JVal} {k : String × String} (h : extract_identity d = .ok k) :
    kName d = k.2 := by
  unfold kName
  rw [h]

theorem scan_dups_append {f g : String → String} :
    ∀ (L₁ : List JVal) {ids names : List String} {L₂ : List JVal},
      scan_dups f g ids names (L₁ ++ L₂) =
        match scan_dups f g ids names L₁ with
        | .ok _ => scan_dups f g (seenIdsAfter ids L₁) (seenNamesAfter names L₁) L₂
        | .error e => .error e := by
  intro L₁
  induction L₁ with
  | nil => intro ids names L₂; rfl
  | cons d L₁' ih =>
      intro ids names L₂
      rw [List.cons_append]
      cases hex : extract_identity d with
      | error e =>
          have hstep : ∀ X, scan_dups f g ids names (d :: X) = .error e := by
            intro X
            unfold scan_dups
            rw [hex]
            rfl
          rw [hstep, hstep]
      | ok k =>
          by_cases hc1 : (decide (k.1 ≠ "") && decide (k.1 ∈ ids)) = true
          · have hstep : ∀ X, scan_dups f g ids names (d :: X) =
                .error (.valueError (f k.1)) := by
              intro X
              unfold scan_dups
              rw [hex]
              simp only [bind, Except.bind]
              rw [if_pos hc1]
            rw [hstep, hstep]
          · by_cases hc2 : (decide (k.2 ≠ "") && decide (k.2 ∈ names)) = true
            · have hstep : ∀ X, scan_dups f g ids names (d :: X) =
                  .error (.valueError (g k.2)) := by
                intro X
                unfold scan_dups
                rw [hex]
                simp only [bind, Except.bind]
                rw [if_neg (by simpa using hc1), if_pos hc2]
              rw [hstep, hstep]
            · have hstep : ∀ X, scan_dups f g ids names (d :: X) =
                  scan_dups f g (if k.1 ≠ "" then k.1 :: ids else ids)
                    (if k.2 ≠ "" then k.2 :: names else names) X := by
                intro X
                unfold scan_dups
                rw [hex]
                simp only [bind, Except.bind]
                rw [if_neg (by simpa using hc1), if_neg (by simpa using hc2)]
                cases X with
                | nil => rfl
                | cons dev rest => rfl
              rw [hstep, hstep, ih]
              have hseen1 : seenIdsAfter ids (d :: L₁') =
                  seenIdsAfter (if k.1 ≠ "" then k.1 :: ids else ids) L₁' := by
                show seenIdsAfter (if kId d ≠ "" then kId d :: ids else ids) L₁' = _
                rw [kId_eq hex]
              have hseen2 : seenNamesAfter names (d :: L₁') =
                  seenNamesAfter (if k.2 ≠ "" then k.2 :: names else names) L₁' := by
                show seenNamesAfter (if kName d ≠ "" then kName d :: names else names) L₁' = _
                rw [kName_eq hex]
              rw [hseen1, hseen2]

theorem mem_seenIdsAfter :
    ∀ {L : List JVal} {ids : List String} {x : String},
      x ∈ seenIdsAfter ids L ↔ x ∈ ids ∨ ∃ d ∈ L, kId d = x ∧ x ≠ "" := by
  intro L
  induction L with
  | nil => intro ids x; unfold seenIdsAfter; simp
  | cons d rest ih =>
      intro ids x
      unfold seenIdsAfter
      rw [ih]
      by_cases hd : kId d ≠ ""
      · rw [if_pos hd]
        constructor
        · rintro (hm | hrest)
          · rcases List.mem_cons.mp hm with hx | hx
            · exact Or.inr ⟨d, List.mem_cons_self d rest, hx.symm, hx ▸ hd⟩
            · exact Or.inl hx
          · obtain ⟨d', hd', hk, hne⟩ := hrest
            exact Or.inr ⟨d', List.mem_cons_of_mem d hd', hk, hne⟩
        · rintro (hx | ⟨d', hd', hk, hne⟩)
          · exact Or.inl (List.mem_cons_of_mem _ hx)
          · rcases List.mem_cons.mp hd' with hdd | hdd
            · subst hdd
              exact Or.inl (by simp [hk])
            · exact Or.inr ⟨d', hdd, hk, hne⟩
      · rw [if_neg hd]
        push_neg at hd
        constructor
        · rintro (hx | ⟨d', hd', hk, hne⟩)
          · exact Or.inl hx
          · exact Or.inr ⟨d', List.mem_cons_of_mem d hd', hk, hne⟩
        · rintro (hx | ⟨d', hd', hk, hne⟩)
          · exact Or.inl hx
          · rcases List.mem_cons.mp hd' with hdd | hdd
            · subst hdd
              exact absurd (hk ▸ hd) hne
            · exact Or.inr ⟨d', hdd, hk, hne⟩

theorem mem_seenNamesAfter :
    ∀ {L : List JVal} {names : List String} {x : String},
      x ∈ seenNamesAfter names L ↔ x ∈ names ∨ ∃ d ∈ L, kName d = x ∧ x ≠ "" := by
  intro L
  induction L with
  | nil => intro names x; unfold seenNamesAfter; simp
  | cons d rest ih =>
      intro names x
      unfold seenNamesAfter
      rw [ih]
      by_cases hd : kName d ≠ ""
      · rw [if_pos hd]
        constructor
        · rintro (hm | hrest)
          · rcases List.mem_cons.mp hm with hx | hx
            · exact Or.inr ⟨d, List.mem_cons_self d rest, hx.symm, hx ▸ hd⟩
            · exact Or.inl hx
          · obtain ⟨d', hd', hk, hne⟩ := hrest
            exact Or.inr ⟨d', List.mem_cons_of_mem d hd', hk, hne⟩
        · rintro (hx | ⟨d', hd', hk, hne⟩)
          · exact Or.inl (List.mem_cons_of_mem _ hx)
          · rcases List.mem_cons.mp hd' with hdd | hdd
            · subst hdd
              exact Or.inl (by simp [hk])
            · exact Or.inr ⟨d', hdd, hk, hne⟩
      · rw [if_neg hd]
        push_neg at hd
        constructor
        · rintro (hx | ⟨d', hd', hk, hne⟩)
          · exact Or.inl hx
          · exact Or.inr ⟨d', List.mem_cons_of_mem d hd', hk, hne⟩
        · rintro (hx | ⟨d', hd', hk, hne⟩)
          · exact Or.inl hx
          · rcases List.mem_cons.mp hd' with hdd | hdd
            · subst hdd
              exact absurd (hk ▸ hd) hne
            · exact Or.inr ⟨d', hdd, hk, hne⟩

theorem scan_dups_first {f g : String → String} (L₁ : List JVal) (d : JVal)
    (L₂ : List JVal) (k : String × String)
    (h1 : scan_dups f g [] [] L₁ = .ok ())
    (hex : extract_identity d = .ok k)
    (htrig : (k.1 ≠ "" ∧ k.1 ∈ seenIdsAfter [] L₁) ∨ (k.2 ≠ "" ∧ k.2 ∈ seenNamesAfter [] L₁)) :
    scan_dups f g [] [] (L₁ ++ d :: L₂) =
      .error (.valueError
        (if k.1 ≠ "" ∧ k.1 ∈ seenIdsAfter [] L₁ then f k.1 else g k.2)) := by
  rw [scan_dups_append L₁, h1]
  show scan_dups f g (seenIdsAfter [] L₁) (seenNamesAfter [] L₁) (d :: L₂) = _
  unfold scan_dups
  rw [hex]
  simp only [bind, Except.bind]
  by_cases hid : k.1 ≠ "" ∧ k.1 ∈ seenIdsAfter [] L₁
  · rw [if_pos (by simp [hid.1, hid.2]), if_pos hid]
  · have hnm : k.2 ≠ "" ∧ k.2 ∈ seenNamesAfter [] L₁ := htrig.resolve_left hid
    rw [if_neg (by simpa using hid), if_pos (by simp [hnm.1, hnm.2]), if_neg hid]

end Sanitize

namespace Sanitize

theorem overlap_scan_ok {ai an : String} {ids names : List String} {path : String} :
    ∀ {devs : List JVal}, overlap_scan ai an ids names path devs = .ok () →
      ∀ d ∈ devs, ∃ k, extract_identity d = .ok k ∧
        ¬ ((ai ≠ "" ∧ k.1 ≠ "" ∧ ai = k.1) ∨ (an ≠ "" ∧ k.2 ≠ "" ∧ an = k.2)) ∧
        (k.1 ≠ "" → k.1 ∉ ids) ∧ (k.2 ≠ "" → k.2 ∉ names) := by
  intro devs
  induction devs with
  | nil => intro _ d hd; cases hd
  | cons d0 rest ih =>
      intro h d hd
      unfold overlap_scan at h
      cases hex : extract_identity d0 with
      | error e => rw [hex] at h; cases h
      | ok k0 =>
          rw [hex] at h
          simp only [bind, Except.bind] at h
          split at h
          · cases h
          · split at h
            · cases h
            · rename_i hcond1 hcond2
              rcases List.mem_cons.mp hd with hd0 | hdr
              · subst hd0
                refine ⟨k0, hex, ?_, ?_, ?_⟩
                · intro hmatch
                  apply hcond1
                  rcases hmatch with ⟨h1, h2, h3⟩ | ⟨h1, h2, h3⟩
                  · simp [h1, h2, h3]
                  · simp [h1, h2, h3]
                · intro hne hmem
                  exact hcond2 (by simp [hne, hmem])
                · intro hne hmem
                  exact hcond2 (by simp [hne, hmem])
              · exact ih h d hdr

theorem approver_sets_mem :
    ∀ {aps : List JVal} {ids names : List String},
      approver_sets aps = .ok (ids, names) →
      ∀ a ∈ aps, ∃ k, extract_identity a = .ok k ∧
        (k.1 ≠ "" → k.1 ∈ ids) ∧ (k.2 ≠ "" → k.2 ∈ names) := by
  intro aps
  induction aps with
  | nil => intro ids names _ a ha; cases ha
  | cons a0 rest ih =>
      intro ids names h a ha
      unfold approver_sets at h
      rw [exBind_ok] at h
      obtain ⟨k0, hex, h⟩ := h
      rw [exBind_ok] at h
      obtain ⟨pr, hrest, h⟩ := h
      obtain ⟨ids0, names0⟩ := pr
      injection h with h
      injection h with hids hnames
      rcases List.mem_cons.mp ha with ha0 | har
      · subst ha0
        refine ⟨k0, hex, ?_, ?_⟩
        · intro hne
          rw [← hids]
          simp [hne]
        · intro hne
          rw [← hnames]
          simp [hne]
      · obtain ⟨k, hk, h1, h2⟩ := ih hrest a har
        refine ⟨k, hk, ?_, ?_⟩
        · intro hne
          rw [← hids]
          have := h1 hne
          by_cases hk0 : k0.1 ≠ "" <;> simp [hk0, this]
        · intro hne
          rw [← hnames]
          have := h2 hne
          by_cases hk0 : k0.2 ≠ "" <;> simp [hk0, this]

theorem check_no_overlap_ok {devs : List JVal} {author : JVal}
    {approvers : List JVal} {path : String}
    (h : check_no_overlap devs author approvers path = .ok ()) :
    ∃ ak, extract_identity author = .ok ak ∧
      ∀ d ∈ devs, ∃ k, extract_identity d = .ok k ∧
        ¬ ((ak.1 ≠ "" ∧ k.1 ≠ "" ∧ ak.1 = k.1) ∨ (ak.2 ≠ "" ∧ k.2 ≠ "" ∧ ak.2 = k.2)) ∧
        (∀ a ∈ approvers, ∃ kap, extract_identity a = .ok kap ∧
          ¬ (k.1 ≠ "" ∧ kap.1 = k.1) ∧ ¬ (k.2 ≠ "" ∧ kap.2 = k.2)) := by
  unfold check_no_overlap at h
  rw [exBind_ok] at h
  obtain ⟨ak, hak, h⟩ := h
  obtain ⟨ak1, ak2⟩ := ak
  rw [exBind_ok] at h
  obtain ⟨pr, hsets, h⟩ := h
  obtain ⟨ids, names⟩ := pr
  refine ⟨(ak1, ak2), hak, ?_⟩
  intro d hd
  obtain ⟨k, hk, hnm, hni, hnn⟩ := overlap_scan_ok h d hd
  refine ⟨k, hk, hnm, ?_⟩
  intro a ha
  obtain ⟨kap, hkap, hin1, hin2⟩ := approver_sets_mem hsets a ha
  refine ⟨kap, hkap, ?_, ?_⟩
  · rintro ⟨hne, heq⟩
    exact hni hne (heq ▸ hin1 (heq ▸ hne))
  · rintro ⟨hne, heq⟩
    exact hnn hne (heq ▸ hin2 (heq ▸ hne))

theorem top_overlap_scan_ok {R : List (String × String)} :
    ∀ {devs : List JVal}, top_overlap_scan R devs = .ok () →
      ∀ d ∈ devs, ∃ k, extract_identity d = .ok k ∧
        ¬ (k.1 ≠ "" ∧ ("id", k.1) ∈ R) ∧ ¬ (k.2 ≠ "" ∧ ("name", pyLower k.2) ∈ R) := by
  intro devs
  induction devs with
  | nil => intro _ d hd; cases hd
  | cons d0 rest ih =>
      intro h d hd
      unfold top_overlap_scan at h
      cases hex : extract_identity d0 with
      | error e => rw [hex] at h; cases h
      | ok k0 =>
          rw [hex] at h
          simp only [bind, Except.bind] at h
          split at h
          · cases h
          · rename_i hcond
            rcases List.mem_cons.mp hd with hd0 | hdr
            · subst hd0
              refine ⟨k0, hex, ?_, ?_⟩
              · rintro ⟨hne, hmem⟩
                exact hcond (by simp [hne, hmem])
              · rintro ⟨hne, hmem⟩
                exact hcond (by simp [hne, hmem])
            · exact ih h d hdr

end Sanitize

namespace Sanitize

theorem mem_asList_getD {v : JVal} {k : String} {d : JVal}
    (hd : d ∈ asList (jGetD v k (.arr []))) :
    ∃ devs, jGet v k = some (.arr devs) ∧ d ∈ devs := by
  unfold jGetD at hd
  cases hv : jGet v k with
  | none =>
      rw [hv] at hd
      cases hd
  | some x =>
      rw [hv] at hd
      cases x with
      | arr l => exact ⟨l, rfl, hd⟩
      | null => cases hd
      | bool b => cases hd
      | num n => cases hd
      | str s => cases hd
      | obj o => cases hd

theorem pairwise_asList_getD {v : JVal} {k : String}
    (hp : ∀ devs, jGet v k = some (.arr devs) → devs.Pairwise noShareRel) :
    (asList (jGetD v k (.arr []))).Pairwise noShareRel := by
  unfold jGetD
  cases hv : jGet v k with
  | none => exact List.Pairwise.nil
  | some x =>
      cases x with
      | arr l => exact hp l hv
      | null => exact List.Pairwise.nil
      | bool b => exact List.Pairwise.nil
      | num n => exact List.Pairwise.nil
      | str s => exact List.Pairwise.nil
      | obj o => exact List.Pairwise.nil

theorem accepted_commit_checks {p w : JVal} (h : validate_payload p = .ok w)
    {c' : JVal} (hc' : c' ∈ asList (jGetD w "commits" (.arr []))) :
    ∃ path, ∀ devs, jGet c' "relevant_developers" = some (.arr devs) →
      scan_dups (dupIdMsg path) (dupNameMsg path) [] [] devs = .ok () ∧
      check_no_overlap devs (jGetD c' "author" .null)
        (asList (jGetD c' "approvers" (.arr []))) path = .ok () := by
  obtain ⟨hw, commits, commitsV, R, hpc, hR, hcv, hwc, hrd⟩ := validate_payload_ok_parts h
  have hwcl : asList (jGetD w "commits" (.arr [])) = commitsV := by
    rw [jGetD_of_get hwc]
    rfl
  rw [hwcl] at hc'
  obtain ⟨j, hget⟩ := List.mem_iff_get.mp hc'
  cases j with
  | mk jv hjv =>
      have hlen : commitsV.length = commits.length := by
        rw [validate_commits_from_map hcv, List.length_map]
      have hjlt : jv < commits.length := hlen ▸ hjv
      obtain ⟨hj2, hvc⟩ := validate_commits_from_nth hcv jv hjlt
      have hvc2 : validate_commit (commits.get ⟨jv, hjlt⟩) (0 + jv) = .ok c' := by
        rw [← hget]
        exact hvc
      obtain ⟨hn, ho, hchecks⟩ := validate_commit_ok2 hvc2
      exact ⟨"commits[" ++ toString (0 + jv) ++ "]", hchecks⟩

/-- C1, amended.  The overlap invariant is scoped, not payload-wide: in an
accepted payload, every entry of a commit's `relevant_developers` list
shares no identity channel (non-empty slack_id, non-empty normalized name)
with that commit's *own* author or approvers, and every entry of the
top-level `relevant_developers` list avoids the restricted identity set
built from all commits (when there is at least one commit).  Nothing
relates a commit's list to *other* commits' authors or approvers — see the
counterexample, where such a cross-commit match is accepted. -/
theorem C1_amended (p w : JVal) (h : validate_payload p = .ok w) :
    (∀ c' ∈ asList (jGetD w "commits" (.arr [])),
      ∀ d ∈ asList (jGetD c' "relevant_developers" (.arr [])),
        ∃ ak k, extract_identity (jGetD c' "author" .null) = .ok ak ∧
          extract_identity d = .ok k ∧
          ¬ ((ak.1 ≠ "" ∧ k.1 ≠ "" ∧ ak.1 = k.1) ∨ (ak.2 ≠ "" ∧ k.2 ≠ "" ∧ ak.2 = k.2)) ∧
          ∀ a ∈ asList (jGetD c' "approvers" (.arr [])),
            ∃ kap, extract_identity a = .ok kap ∧
              ¬ (k.1 ≠ "" ∧ kap.1 = k.1) ∧ ¬ (k.2 ≠ "" ∧ kap.2 = k.2)) ∧
    (∀ R, build_restricted (asList (jGetD p "commits" .null)) = .ok R →
      asList (jGetD w "commits" (.arr [])) ≠ [] →
      ∀ d ∈ asList (jGetD w "relevant_developers" (.arr [])),
        ∃ k, extract_identity d = .ok k ∧
          ¬ (k.1 ≠ "" ∧ ("id", k.1) ∈ R) ∧ ¬ (k.2 ≠ "" ∧ ("name", pyLower k.2) ∈ R)) := by
  constructor
  · intro c' hc' d hd
    obtain ⟨path, hchecks⟩ := accepted_commit_checks h hc'
    obtain ⟨devs, hdevs, hdin⟩ := mem_asList_getD hd
    obtain ⟨hscan, hover⟩ := hchecks devs hdevs
    obtain ⟨ak, hak, hall⟩ := check_no_overlap_ok hover
    obtain ⟨k, hk, hnm, happr⟩ := hall d hdin
    exact ⟨ak, k, hak, hk, hnm, happr⟩
  · intro R0 hR0 hne d hd
    obtain ⟨hw, commits, commitsV, R, hpc, hR, hcv, hwc, hrd⟩ := validate_payload_ok_parts h
    have hpcl : asList (jGetD p "commits" .null) = commits := by
      rw [jGetD_of_get hpc]
      rfl
    rw [hpcl, hR] at hR0
    injection hR0 with hR0
    subst hR0
    have hwcl : asList (jGetD w "commits" (.arr [])) = commitsV := by
      rw [jGetD_of_get hwc]
      rfl
    rw [hwcl] at hne
    obtain ⟨devs, hdevs, hdin⟩ := mem_asList_getD hd
    rcases hrd with hnone | ⟨devs2, hdevs2, hscan, htop⟩
    · rw [hnone] at hdevs
      cases hdevs
    · rw [hdevs2] at hdevs
      injection hdevs with hdevs
      injection hdevs with hdevs
      subst hdevs
      exact top_overlap_scan_ok (htop hne) d hdin

/-- Summary of the duplicate-scan lemmas: an accepted payload's output lists
are pairwise free of shared *stored-field* identity keys (the keys
`extract_identity` computes from the twice-normalized fields — not the
spec's single-pass normalized names, see the C3 bug). -/
theorem accepted_pairwise (p w : JVal) (h : validate_payload p = .ok w) :
    (asList (jGetD w "relevant_developers" (.arr []))).Pairwise noShareRel ∧
    ∀ c' ∈ asList (jGetD w "commits" (.arr [])),
      (asList (jGetD c' "relevant_developers" (.arr []))).Pairwise noShareRel := by
  constructor
  · apply pairwise_asList_getD
    intro devs hdevs
    obtain ⟨hw, commits, commitsV, R, hpc, hR, hcv, hwc, hrd⟩ := validate_payload_ok_parts h
    rcases hrd with hnone | ⟨devs2, hdevs2, hscan, htop⟩
    · rw [hnone] at hdevs
      cases hdevs
    · rw [hdevs2] at hdevs
      injection hdevs with hdevs
      injection hdevs with hdevs
      subst hdevs
      exact scan_dups_ok_pairwise hscan
  · intro c' hc'
    obtain ⟨path, hchecks⟩ := accepted_commit_checks h hc'
    exact pairwise_asList_getD fun devs hdevs => scan_dups_ok_pairwise (hchecks devs hdevs).1

/-- C10, confirmed.  Frame property of successful validation: the value
`validate_payload` returns is exactly the pure rewriting `normPayloadPure`
of its input, which normalizes only the person records inside commits and
inside the top-level `relevant_developers`; every other field — top-level
strings, each commit's `hash` and `url`, `relevant_files`, `notes` —
keeps the parsed value, because the trimmed copies `require_string`
returns are discarded for non-person fields. -/
theorem C10_frame (p w : JVal) (h : validate_payload p = .ok w) :
    w = normPayloadPure p :=
  (validate_payload_ok_parts h).1

end Sanitize

namespace Sanitize

/-- Witness for the amended C1 at `exCross`. -/
theorem C1_amended_witness :
    validate_payload exCross = .ok exCross ∧
    ((∀ c' ∈ asList (jGetD exCross "commits" (.arr [])),
      ∀ d ∈ asList (jGetD c' "relevant_developers" (.arr [])),
        ∃ ak k, extract_identity (jGetD c' "author" .null) = .ok ak ∧
          extract_identity d = .ok k ∧
          ¬ ((ak.1 ≠ "" ∧ k.1 ≠ "" ∧ ak.1 = k.1) ∨ (ak.2 ≠ "" ∧ k.2 ≠ "" ∧ ak.2 = k.2)) ∧
          ∀ a ∈ asList (jGetD c' "approvers" (.arr [])),
            ∃ kap, extract_identity a = .ok kap ∧
              ¬ (k.1 ≠ "" ∧ kap.1 = k.1) ∧ ¬ (k.2 ≠ "" ∧ kap.2 = k.2)) ∧
    (∀ R, build_restricted (asList (jGetD exCross "commits" .null)) = .ok R →
      asList (jGetD exCross "commits" (.arr [])) ≠ [] →
      ∀ d ∈ asList (jGetD exCross "relevant_developers" (.arr [])),
        ∃ k, extract_identity d = .ok k ∧
          ¬ (k.1 ≠ "" ∧ ("id", k.1) ∈ R) ∧ ¬ (k.2 ≠ "" ∧ ("name", pyLower k.2) ∈ R))) :=
  ⟨rfl, C1_amended exCross exCross rfl⟩

/-- Witness for C10 at `exCross`. -/
theorem C10_frame_witness :
    validate_payload exCross = .ok exCross ∧ exCross = normPayloadPure exCross :=
  ⟨rfl, C10_frame exCross exCross rfl⟩

end Sanitize
